import Mathlib

/-!
Verification development for the `artera-storage` filesystem service
(`src/services/filesystem_service.py`).

Shallow embedding conventions:
* User-supplied path strings are `List Char` (Python `str`).
* Filesystem names (single path segments) are `Seg := List Char`; absolute and
  relative paths are `List Seg` (the storage root is an abstract canonical
  segment list `root`, as produced by `self.storage_root.resolve()`).
* The directory tree below the storage root is `FSEntry`: a file with its byte
  content (`List Nat`), or a directory with an association list of
  name/entry pairs.  The model is a POSIX filesystem without symlinks:
  `Path.resolve()` is pure segment normalisation (`.`/empty dropped, `..` pops),
  and `\` is an ordinary filename character, not a separator.
* Fallible operations return `Except FsErr _`; each constructor of `FsErr`
  corresponds to one `HTTPException` raise site and carries its status code
  through `FsErr.statusCode`.  An error result leaves the filesystem
  unchanged, matching the fact that every raise in the source happens before
  the mutating call or on its failure.
-/

/-! ### Python string primitives used by `_validate_path` and `upload_file` -/

/-- Whitespace test matching Python `str.strip()` for the ASCII range. -/
def pyWS (c : Char) : Bool :=
  c = ' ' ∨ c = '\t' ∨ c = '\n' ∨ c = '\r' ∨ c = '\x0b' ∨ c = '\x0c'

/-- Remove characters satisfying `p` from both ends, Python `str.strip(chars)`. -/
def stripBy (p : Char → Bool) (s : List Char) : List Char :=
  ((s.dropWhile p).reverse.dropWhile p).reverse

/-- Python `s.strip()` (no arguments: whitespace). -/
def wsStrip (s : List Char) : List Char := stripBy pyWS s

/-- Python `s.strip(c)` for a single-character argument. -/
def stripCh (c : Char) (s : List Char) : List Char := stripBy (fun a => a = c) s

/-- Python `relative_path.strip().strip("/").strip("\\")` from line 60 of
`filesystem_service.py`. -/
def pyTrim (s : List Char) : List Char := stripCh '\\' (stripCh '/' (wsStrip s))

/-- Python substring test `pat in s`. -/
def containsSub (pat : List Char) : List Char → Bool
  | [] => pat.isPrefixOf []
  | a :: rest => pat.isPrefixOf (a :: rest) || containsSub pat rest

/-- Split a string on a separator character (POSIX `Path` parsing of the
user-supplied relative path). -/
def splitOnChar (c : Char) : List Char → List (List Char)
  | [] => [[]]
  | a :: rest =>
    match splitOnChar c rest with
    | [] => [[a]]
    | s :: ss => if a = c then [] :: s :: ss else (a :: s) :: ss

/-! ### Paths -/

/-- A single path segment (filesystem name). -/
abbrev Seg := List Char

/-- A path as a list of segments. -/
abbrev PathT := List Seg

/-- String literal helper: the character list of a Lean string literal. -/
def str (s : String) : List Char := s.data

/-- POSIX `Path.resolve()` on `root / raw-segments` in a symlink-free tree:
empty and `.` segments are dropped, `..` pops one segment (staying at `/`
when already there). -/
def resolveAbs (acc : PathT) : List Seg → PathT
  | [] => acc
  | s :: rest =>
    if s = [] ∨ s = str "." then resolveAbs acc rest
    else if s = str ".." then resolveAbs acc.dropLast rest
    else resolveAbs (acc ++ [s]) rest

/-! ### Errors

Each constructor corresponds to one `HTTPException` raise site in
`filesystem_service.py`. -/

inductive FsErr where
  /-- `_validate_path`: "Path cannot be empty" (400). -/
  | emptyPath
  /-- `_validate_path`: "Path traversal detected. Relative paths only." (400). -/
  | traversal
  /-- `_validate_path`: "Invalid path: path traversal detected" — the
  `relative_to` containment check failed (400). -/
  | outsideRoot
  /-- Target absent (404). -/
  | notFound
  /-- "Path is not a folder" (400). -/
  | notAFolder
  /-- "Path is not a file" (400). -/
  | notAFile
  /-- `upload_file`: "Filename cannot be empty" (400). -/
  | emptyFilename
  /-- `upload_file`: "Invalid filename: path traversal detected" (400). -/
  | badFilename
  /-- 409: file exists / folder not empty. -/
  | conflict
  /-- Underlying OS failure surfaced as 500. -/
  | internalErr
deriving DecidableEq

/-- HTTP status code attached to each raise site. -/
def FsErr.statusCode : FsErr → Nat
  | .notFound => 404
  | .conflict => 409
  | .internalErr => 500
  | _ => 400

/-! ### `_validate_path` (lines 39–81) -/

/-- Shallow embedding of `FilesystemService._validate_path`.  `root` is the
canonical (resolved) segment list of `self.storage_root`; on success the
absolute path of the validated location is returned. -/
def validate_path (root : PathT) (relative_path : List Char) : Except FsErr PathT :=
  if relative_path = [] ∨ wsStrip relative_path = [] then .error .emptyPath
  else
    let normalized := pyTrim relative_path
    if containsSub (str "..") normalized ∨ normalized.head? = some '/' ∨ ':' ∈ normalized
    then .error .traversal
    else
      let full := resolveAbs root ((splitOnChar '/' normalized).filter
        (fun s => ¬(s = [] ∨ s = str ".")))
      if root.isPrefixOf full then .ok full else .error .outsideRoot

/-! ### Filesystem model -/

/-- A filesystem object under the storage root: a regular file with its byte
content, or a directory with an ordered association list of named entries. -/
inductive FSEntry where
  | file (content : List Nat)
  | dir (entries : List (Seg × FSEntry))

/-- Is this entry a directory? -/
def FSEntry.isDir : FSEntry → Bool
  | .file _ => false
  | .dir _ => true

/-- First entry with the given name (POSIX lookup; on a real filesystem names
within a directory are unique). -/
def lookupFirst (n : Seg) : List (Seg × FSEntry) → Option FSEntry
  | [] => none
  | (m, e) :: rest => if m = n then some e else lookupFirst n rest

/-- Replace the value of the first entry with the given name. -/
def updateFirst (n : Seg) (v : FSEntry) : List (Seg × FSEntry) → List (Seg × FSEntry)
  | [] => []
  | (m, e) :: rest => if m = n then (m, v) :: rest else (m, e) :: updateFirst n v rest

/-- Remove the first entry with the given name. -/
def eraseFirst (n : Seg) : List (Seg × FSEntry) → List (Seg × FSEntry)
  | [] => []
  | (m, e) :: rest => if m = n then rest else (m, e) :: eraseFirst n rest

/-- Follow a relative path from an entry; `none` when the path does not exist
(this matches POSIX `exists()`: a path through a regular file is absent). -/
def findEntry : FSEntry → PathT → Option FSEntry
  | e, [] => some e
  | .file _, _ :: _ => none
  | .dir es, n :: rest =>
    match lookupFirst n es with
    | none => none
    | some c => findEntry c rest

/-- Keys of an association list are pairwise distinct. -/
def nodupKeys : List (Seg × FSEntry) → Bool
  | [] => true
  | (n, _) :: rest => rest.all (fun p => decide (p.1 ≠ n)) && nodupKeys rest

mutual

/-- Well-formedness of a filesystem state: within every directory, names are
unique (always true of a real filesystem). -/
def FSEntry.wfb : FSEntry → Bool
  | .file _ => true
  | .dir es => nodupKeys es && wfbChildren es

/-- All children of a directory are well-formed. -/
def wfbChildren : List (Seg × FSEntry) → Bool
  | [] => true
  | (_, e) :: rest => e.wfb && wfbChildren rest

end

/-! ### Folder and file mutations -/

/-- Fresh chain of nested empty directories (what `mkdir(parents=True)` creates
for the missing tail of a path). -/
def freshDirs : PathT → FSEntry
  | [] => .dir []
  | n :: rest => .dir [(n, freshDirs rest)]

/-- `full_path.mkdir(parents=True, exist_ok=True)`: creates missing
directories; succeeds without change when the directory already exists; fails
(`OSError`) when a regular file occupies the path or an intermediate
segment. -/
def mkdirP : FSEntry → PathT → Option FSEntry
  | .file _, [] => none
  | .dir es, [] => some (.dir es)
  | .file _, _ :: _ => none
  | .dir es, n :: rest =>
    match lookupFirst n es with
    | some c =>
      match mkdirP c rest with
      | some c' => some (.dir (updateFirst n c' es))
      | none => none
    | none => some (.dir (es ++ [(n, freshDirs rest)]))

/-- Remove the object at a (non-empty) relative path, returning the new state;
`none` when the path does not exist. -/
def removeAt : FSEntry → PathT → Option FSEntry
  | _, [] => none
  | .file _, _ :: _ => none
  | .dir es, n :: rest =>
    match lookupFirst n es with
    | none => none
    | some c =>
      match rest with
      | [] => some (.dir (eraseFirst n es))
      | _ :: _ =>
        match removeAt c rest with
        | some c' => some (.dir (updateFirst n c' es))
        | none => none

/-- `file_path.write_bytes(content)`: full replace of an existing file, or
creation of a new file in an existing directory; `none` (an `OSError`) when
the target is a directory or an intermediate component is missing or a
file. -/
def writeFile (content : List Nat) : FSEntry → PathT → Option FSEntry
  | .file _, [] => some (.file content)
  | .dir _, [] => none
  | .file _, _ :: _ => none
  | .dir es, n :: rest =>
    match lookupFirst n es with
    | some c =>
      match writeFile content c rest with
      | some c' => some (.dir (updateFirst n c' es))
      | none => none
    | none =>
      match rest with
      | [] => some (.dir (es ++ [(n, .file content)]))
      | _ :: _ => none

/-- The relative segments of a validated absolute path (the source works with
`full_path` and re-derives relativity via `relative_to(storage_root)`). -/
def relSegs (root full : PathT) : PathT := full.drop root.length

/-- Embedding of `FilesystemService.create_folder` (lines 83–108). -/
def create_folder (root : PathT) (fs : FSEntry) (relative_path : List Char) :
    Except FsErr (PathT × FSEntry) :=
  match validate_path root relative_path with
  | .error e => .error e
  | .ok full =>
    match mkdirP fs (relSegs root full) with
    | some fs' => .ok (full, fs')
    | none => .error .internalErr

/-- Embedding of `FilesystemService.delete_folder` (lines 110–149).  The result
state is `none` exactly when the storage root directory itself was removed
(possible via the raw path `"/"`, which validates to the root). -/
def delete_folder (root : PathT) (fs : FSEntry) (relative_path : List Char)
    (recursive : Bool) : Except FsErr (Option FSEntry) :=
  match validate_path root relative_path with
  | .error e => .error e
  | .ok full =>
    let segs := relSegs root full
    match findEntry fs segs with
    | none => .error .notFound
    | some (.file _) => .error .notAFolder
    | some (.dir es) =>
      if recursive then
        match segs with
        | [] => .ok none
        | _ :: _ =>
          match removeAt fs segs with
          | some fs' => .ok (some fs')
          | none => .error .internalErr
      else
        match es with
        | [] =>
          match segs with
          | [] => .ok none
          | _ :: _ =>
            match removeAt fs segs with
            | some fs' => .ok (some fs')
            | none => .error .internalErr
        | _ :: _ => .error .conflict

/-- Embedding of `FilesystemService.upload_file` (lines 151–214). -/
def upload_file (root : PathT) (fs : FSEntry) (file_content : List Nat)
    (relative_folder_path : List Char) (filename : List Char) (overwrite : Bool) :
    Except FsErr (PathT × FSEntry) :=
  match validate_path root relative_folder_path with
  | .error e => .error e
  | .ok full =>
    let segs := relSegs root full
    match findEntry fs segs with
    | none => .error .notFound
    | some (.file _) => .error .notAFolder
    | some (.dir _) =>
      if filename = [] ∨ wsStrip filename = [] then .error .emptyFilename
      else if containsSub (str "..") filename ∨ '/' ∈ filename ∨ '\\' ∈ filename
      then .error .badFilename
      else
        let fsegs := (splitOnChar '/' filename).filter (fun s => ¬(s = [] ∨ s = str "."))
        let target := segs ++ fsegs
        match findEntry fs target with
        | some _ =>
          if overwrite then
            match writeFile file_content fs target with
            | some fs' => .ok (full ++ fsegs, fs')
            | none => .error .internalErr
          else .error .conflict
        | none =>
          match writeFile file_content fs target with
          | some fs' => .ok (full ++ fsegs, fs')
          | none => .error .internalErr

/-- Embedding of `FilesystemService.delete_file` (lines 216–246). -/
def delete_file (root : PathT) (fs : FSEntry) (relative_file_path : List Char) :
    Except FsErr FSEntry :=
  match validate_path root relative_file_path with
  | .error e => .error e
  | .ok full =>
    let segs := relSegs root full
    match findEntry fs segs with
    | none => .error .notFound
    | some (.dir _) => .error .notAFile
    | some (.file _) =>
      match removeAt fs segs with
      | some fs' => .ok fs'
      | none => .error .internalErr

/-! ### Listing: items, enumeration, ordering -/

/-- The source stores each row's `relative_path` as the string
`str(relative_item_path).replace("\\", "/")` (lines 287, 299, 343) and, in
`get_tree`, derives `parts` by splitting that string on `"/"` again
(line 345).  Joining the true segments with `/`, replacing every backslash by
`/` and re-splitting amounts to cutting each true segment at its backslashes
(and at any embedded `/`); a segment without either character passes through
unchanged.  One true segment: -/
def mangleSeg (s : Seg) : List Seg :=
  splitOnChar '/' (s.map (fun c => if c = '\\' then '/' else c))

/-- The `parts` of a relative path as `get_tree` computes them: the segments
of the slash-normalized `relative_path` string.  Distinct true paths can
mangle to the same `parts` (a directory literally named `a\b.txt` collides
with a file `b.txt` inside a directory `a`). -/
def mangle (p : PathT) : PathT := p.flatMap mangleSeg

/-- One row of a listing: the dictionary built at lines 284–289 / 295–300 /
340–346.  `name` is the true final component (`item_path.name`); `parts` is
the slash-normalized `relative_path` from the storage root kept as its
segment list (the source stores the `/`-joined, backslash-mangled string and,
in `get_tree`, splits it back into exactly these `parts`). -/
structure Item where
  name : Seg
  isDir : Bool
  parts : PathT
  size : Option Nat
deriving DecidableEq

/-- Item for one filesystem object; `parts` receives the true segment list
and stores its mangled form, matching lines 287/343–345. -/
def mkItem (parts : PathT) (n : Seg) : FSEntry → Item
  | .file c => { name := n, isDir := false, parts := mangle parts, size := some c.length }
  | .dir _ => { name := n, isDir := true, parts := mangle parts, size := none }

mutual

/-- Recursive enumeration below an entry (`base_path.rglob("*")`, which never
yields the base itself).  `pre` is the relative path of the entry from the
storage root. -/
def FSEntry.walk (pre : PathT) : FSEntry → List Item
  | .file _ => []
  | .dir es => walkChildren pre es

/-- Enumerate an association list of children and, recursively, their
subtrees. -/
def walkChildren (pre : PathT) : List (Seg × FSEntry) → List Item
  | [] => []
  | (n, e) :: rest =>
    mkItem (pre ++ [n]) n e :: (e.walk (pre ++ [n]) ++ walkChildren pre rest)

end

/-- Direct children only (`base_path.iterdir()`). -/
def iterItems (pre : PathT) : List (Seg × FSEntry) → List Item
  | [] => []
  | (n, e) :: rest => mkItem (pre ++ [n]) n e :: iterItems pre rest

/-- Python string comparison (code-point lexicographic `<=` on `str`). -/
def lexLEb : List Char → List Char → Bool
  | [], _ => true
  | _ :: _, [] => false
  | a :: as, b :: bs => if a < b then true else if b < a then false else lexLEb as bs

/-- Python `name.lower()` (ASCII case folding). -/
def lowerName (it : Item) : List Char := it.name.map Char.toLower

/-- Sort key comparison for `items.sort(key=lambda x: (x["type"] == "file",
x["name"].lower()))` at lines 303 and 404/412: file-flag first
(`False < True`, so folders precede files), then case-insensitive name. -/
def itemLEb (a b : Item) : Bool :=
  if a.isDir = b.isDir then lexLEb (lowerName a) (lowerName b) else a.isDir

/-- The sorting relation of `list_items` and of per-level child sorting, as a
proposition. -/
def itemLE (a b : Item) : Prop := itemLEb a b = true

instance : DecidableRel itemLE := fun a b => by unfold itemLE; infer_instance

/-- Sort key comparison for `items.sort(key=lambda x: (len(x["parts"]),
x["name"].lower()))` at line 353: depth first, then case-insensitive name. -/
def depthLEb (a b : Item) : Bool :=
  if a.parts.length = b.parts.length then lexLEb (lowerName a) (lowerName b)
  else a.parts.length ≤ b.parts.length

/-- The depth-then-name sorting relation of `get_tree`, as a proposition. -/
def depthLE (a b : Item) : Prop := depthLEb a b = true

instance : DecidableRel depthLE := fun a b => by unfold depthLE; infer_instance

/-- Embedding of `FilesystemService.list_items` (lines 248–305). -/
def list_items (root : PathT) (fs : FSEntry) (relative_path : Option (List Char))
    (recursive : Bool) : Except FsErr (List Item) :=
  match relative_path with
  | some raw =>
    match validate_path root raw with
    | .error e => .error e
    | .ok full =>
      let segs := relSegs root full
      match findEntry fs segs with
      | none => .error .notFound
      | some (.file _) => .error .notAFolder
      | some (.dir es) =>
        .ok (List.insertionSort itemLE
          (if recursive then walkChildren segs es else iterItems segs es))
  | none =>
    match fs with
    | .file _ => .error .internalErr
    | .dir es =>
      .ok (List.insertionSort itemLE
        (if recursive then walkChildren [] es else iterItems [] es))

/-! ### Tree construction (`get_tree`, lines 307–422) -/

/-- A node of the response tree (`TreeNode` in `src/schemas/filesystem.py`):
`isDir` encodes `type == "folder"`, `children` is `None` for the Python
`null`. -/
inductive TreeNode where
  | mk (name : Seg) (isDir : Bool) (parts : PathT) (size : Option Nat)
      (children : Option (List TreeNode))

/-- The `children` field. -/
def TreeNode.children : TreeNode → Option (List TreeNode)
  | .mk _ _ _ _ c => c

/-- The `type == "folder"` flag. -/
def TreeNode.isDir : TreeNode → Bool
  | .mk _ d _ _ _ => d

/-- The `relative_path` field, as segments. -/
def TreeNode.parts : TreeNode → PathT
  | .mk _ _ p _ _ => p

/-- State of the linking loop at lines 349–399.  Processed items are numbered
in processing order; `tmap` records `tree_map` as an association list from
`relative_path` to the node's number (most recent assignment first, matching
Python dict overwrite).  Keys are the mangled `parts` lists, which are in
bijection with the `relative_path` strings the source uses: mangled segments
contain no `/`, so the `/`-join is injective, and the parent key
`"/".join(path_parts[:-1])` at line 372 corresponds to `parts.dropLast`.
`appends` records every `parent_node["children"].append(node)` as
(parent number, own number, item); `roots` records
`root_nodes.append(node)` as (own number, item). -/
structure BState where
  next : Nat
  tmap : List (PathT × Nat)
  appends : List (Nat × Nat × Item)
  roots : List (Nat × Item)

/-- Dict lookup in `tmap` (`tree_map.get(parent_path)`). -/
def tmapGet (q : PathT) : List (PathT × Nat) → Option Nat
  | [] => none
  | (p, i) :: rest => if p = q then some i else tmapGet q rest

/-- One iteration of the `for item in items` loop (lines 355–399). -/
def bstep (st : BState) (it : Item) : BState :=
  let i := st.next
  if it.parts.length - 1 = 0 then
    { next := i + 1, tmap := (it.parts, i) :: st.tmap,
      appends := st.appends, roots := st.roots ++ [(i, it)] }
  else
    match tmapGet it.parts.dropLast st.tmap with
    | some p =>
      { next := i + 1, tmap := (it.parts, i) :: st.tmap,
        appends := st.appends ++ [(p, i, it)], roots := st.roots }
    | none =>
      { next := i + 1, tmap := (it.parts, i) :: st.tmap,
        appends := st.appends, roots := st.roots ++ [(i, it)] }

/-- Run the linking loop over the (depth-then-name sorted) item list. -/
def buildState (items : List Item) : BState :=
  items.foldl bstep { next := 0, tmap := [], appends := [], roots := [] }

/-- Children appended to node number `i`, in append order. -/
def childPairs (st : BState) (i : Nat) : List (Nat × Item) :=
  st.appends.filterMap (fun t => if t.1 = i then some t.2 else none)

/-- Comparison on numbered items by the per-level sort key of
`sort_children`. -/
def pairLE (a b : Nat × Item) : Prop := itemLE a.2 b.2

instance : DecidableRel pairLE := fun a b => by unfold pairLE; infer_instance

/-- Materialise the node for a processed item, reading its children from the
recorded appends, with the per-level sorting of `sort_children`
(lines 401–412): `doSort` is true exactly on the nodes `sort_children`
reaches (all root nodes, then folder children, recursively).  `fuel` bounds
the recursion depth; `get_tree` passes more than the maximal item depth, which
the development proves sufficient, so the `0` case is never reached from
`get_tree`. -/
def readback (st : BState) : Nat → Bool → Nat × Item → TreeNode
  | 0, _, (_, it) =>
    .mk it.name it.isDir it.parts it.size (if it.isDir then some [] else none)
  | fuel + 1, doSort, (i, it) =>
    let kids := childPairs st i
    let kids' := if doSort then List.insertionSort pairLE kids else kids
    let cs := kids'.map (fun p => readback st fuel (doSort && p.2.isDir) p)
    .mk it.name it.isDir it.parts it.size
      (if it.isDir then some cs else if kids.isEmpty then none else some cs)

/-- Maximal `parts` length over a list of items. -/
def maxDepth (items : List Item) : Nat :=
  items.foldr (fun it m => max it.parts.length m) 0

/-- Result of `get_tree`: the root forest and the two totals
(`TreeResponse` in `src/schemas/filesystem.py`). -/
structure TreeResult where
  tree : List TreeNode
  total_files : Nat
  total_folders : Nat

/-- Build the forest and totals from the recursive enumeration of a base
directory (the body of `get_tree` from line 332 on). -/
def buildTree (items : List Item) : TreeResult :=
  let sorted := List.insertionSort depthLE items
  let st := buildState sorted
  let fuel := maxDepth items + 1
  { tree := (List.insertionSort pairLE st.roots).map (readback st fuel true)
    total_files := (items.filter (fun it => it.isDir = false)).length
    total_folders := (items.filter (fun it => it.isDir = true)).length }

/-- Embedding of `FilesystemService.get_tree` (lines 307–422). -/
def get_tree (root : PathT) (fs : FSEntry) (relative_path : Option (List Char)) :
    Except FsErr TreeResult :=
  match relative_path with
  | some raw =>
    match validate_path root raw with
    | .error e => .error e
    | .ok full =>
      let segs := relSegs root full
      match findEntry fs segs with
      | none => .error .notFound
      | some (.file _) => .error .notAFolder
      | some (.dir es) => .ok (buildTree (walkChildren segs es))
  | none =>
    match fs with
    | .file _ => .error .internalErr
    | .dir es => .ok (buildTree (walkChildren [] es))

/-! ### String lemmas -/

theorem isPrefixOf_iff_append {α : Type} [BEq α] [LawfulBEq α] {p l : List α} :
    p.isPrefixOf l = true ↔ ∃ t, l = p ++ t := by
  induction p generalizing l with
  | nil => simp [List.isPrefixOf]
  | cons a as ih =>
    cases l with
    | nil => simp [List.isPrefixOf]
    | cons b bs =>
      simp only [List.isPrefixOf, Bool.and_eq_true, beq_iff_eq, ih, List.cons_append,
        List.cons.injEq]
      constructor
      · rintro ⟨rfl, t, rfl⟩; exact ⟨t, rfl, rfl⟩
      · rintro ⟨t, rfl, rfl⟩; exact ⟨rfl, t, rfl⟩

theorem containsSub_iff {pat s : List Char} :
    containsSub pat s = true ↔ ∃ u v, s = u ++ (pat ++ v) := by
  induction s with
  | nil =>
    simp only [containsSub, isPrefixOf_iff_append]
    constructor
    · rintro ⟨t, ht⟩; exact ⟨[], t, ht⟩
    · rintro ⟨u, v, huv⟩
      rcases List.append_eq_nil.mp huv.symm with ⟨rfl, h2⟩
      exact ⟨v, h2.symm⟩
  | cons a rest ih =>
    simp only [containsSub, Bool.or_eq_true, isPrefixOf_iff_append, ih]
    constructor
    · rintro (⟨t, ht⟩ | ⟨u, v, huv⟩)
      · exact ⟨[], t, ht⟩
      · exact ⟨a :: u, v, by simp [huv]⟩
    · rintro ⟨u, v, huv⟩
      cases u with
      | nil => exact Or.inl ⟨v, by simpa using huv⟩
      | cons x xs =>
        right
        simp only [List.cons_append, List.cons.injEq] at huv
        exact ⟨xs, v, huv.2⟩

theorem containsSub_dropWhile {p : Char → Bool} {pat s : List Char}
    (hpat : ∀ c ∈ pat, p c = false) (h : containsSub pat s = true) :
    containsSub pat (s.dropWhile p) = true := by
  induction s with
  | nil => simpa [List.dropWhile] using h
  | cons a rest ih =>
    by_cases hpa : p a = true
    · rw [List.dropWhile_cons_of_pos hpa]
      apply ih
      simp only [containsSub, Bool.or_eq_true] at h
      rcases h with h | h
      · cases pat with
        | nil => cases rest <;> simp [containsSub, List.isPrefixOf]
        | cons c cs =>
          rcases isPrefixOf_iff_append.mp h with ⟨t, ht⟩
          simp only [List.cons_append, List.cons.injEq] at ht
          exact absurd hpa (by rw [ht.1] at hpa ⊢; simp [hpat c (by simp)] at hpa)
      · exact h
    · rwa [List.dropWhile_cons_of_neg hpa]

theorem containsSub_reverse {pat s : List Char} (h : containsSub pat s = true) :
    containsSub pat.reverse s.reverse = true := by
  rcases containsSub_iff.mp h with ⟨u, v, rfl⟩
  exact containsSub_iff.mpr ⟨v.reverse, u.reverse, by simp⟩

theorem containsSub_stripBy {p : Char → Bool} {pat s : List Char}
    (hpat : ∀ c ∈ pat, p c = false) (h : containsSub pat s = true) :
    containsSub pat (stripBy p s) = true := by
  unfold stripBy
  have h1 := containsSub_dropWhile hpat h
  have h2 := containsSub_reverse h1
  have hpat' : ∀ c ∈ pat.reverse, p c = false := fun c hc => hpat c (List.mem_reverse.mp hc)
  have h3 := containsSub_dropWhile hpat' h2
  have h4 := containsSub_reverse h3
  simpa using h4

theorem mem_dropWhile {p : Char → Bool} {c : Char} {s : List Char}
    (hc : p c = false) (h : c ∈ s) : c ∈ s.dropWhile p := by
  induction s with
  | nil => cases h
  | cons a rest ih =>
    by_cases hpa : p a = true
    · rw [List.dropWhile_cons_of_pos hpa]
      rcases List.mem_cons.mp h with rfl | h'
      · rw [hc] at hpa; cases hpa
      · exact ih h'
    · rwa [List.dropWhile_cons_of_neg hpa]

theorem mem_stripBy {p : Char → Bool} {c : Char} {s : List Char}
    (hc : p c = false) (h : c ∈ s) : c ∈ stripBy p s := by
  unfold stripBy
  have h1 := mem_dropWhile hc h
  have h2 : c ∈ (s.dropWhile p).reverse := List.mem_reverse.mpr h1
  have h3 := mem_dropWhile hc h2
  exact List.mem_reverse.mpr h3

theorem containsSub_pyTrim {s : List Char} (h : containsSub (str "..") s = true) :
    containsSub (str "..") (pyTrim s) = true := by
  unfold pyTrim wsStrip stripCh
  exact containsSub_stripBy (by decide)
    (containsSub_stripBy (by decide) (containsSub_stripBy (by decide) h))

theorem mem_pyTrim {s : List Char} (h : ':' ∈ s) : ':' ∈ pyTrim s := by
  unfold pyTrim wsStrip stripCh
  exact mem_stripBy (by decide) (mem_stripBy (by decide) (mem_stripBy (by decide) h))

theorem wsStrip_ne_nil_of_pyTrim {s : List Char} (h : pyTrim s ≠ []) :
    s ≠ [] ∧ wsStrip s ≠ [] := by
  constructor
  · rintro rfl; exact h rfl
  · intro hw
    apply h
    unfold pyTrim
    rw [hw]
    rfl

theorem isPrefixOf_append_right {α : Type} [BEq α] [LawfulBEq α] {p l m : List α}
    (h : p.isPrefixOf l = true) : p.isPrefixOf (l ++ m) = true := by
  rcases isPrefixOf_iff_append.mp h with ⟨t, rfl⟩
  exact isPrefixOf_iff_append.mpr ⟨t ++ m, by simp⟩


theorem validate_ok_isPre {root full : PathT} {raw : List Char}
    (h : validate_path root raw = .ok full) : root.isPrefixOf full = true := by
  simp only [validate_path] at h
  split at h
  · exact Except.noConfusion h
  · split at h
    · exact Except.noConfusion h
    · split at h
      · rename_i hp
        cases h
        exact hp
      · exact Except.noConfusion h

/-- Claim C1: every path accepted by the resolver is the storage root or a
descendant of it, and every absolute path returned by an operation built on
the resolver (`create_folder`, `upload_file`; the deleting and listing
operations act on the resolver's output directly) stays below the storage
root. -/
theorem c1_containment :
    (∀ (root : PathT) (raw : List Char) (full : PathT),
        validate_path root raw = .ok full → root.isPrefixOf full = true) ∧
    (∀ (root : PathT) (fs : FSEntry) (raw : List Char) (full : PathT) (fs' : FSEntry),
        create_folder root fs raw = .ok (full, fs') → root.isPrefixOf full = true) ∧
    (∀ (root : PathT) (fs : FSEntry) (content : List Nat) (raw fname : List Char)
        (ow : Bool) (full : PathT) (fs' : FSEntry),
        upload_file root fs content raw fname ow = .ok (full, fs') →
        root.isPrefixOf full = true) := by
  refine ⟨fun _ _ _ h => validate_ok_isPre h, ?_, ?_⟩
  · intro root fs raw full fs' h
    unfold create_folder at h
    cases hv : validate_path root raw with
    | error e => rw [hv] at h; exact Except.noConfusion h
    | ok f =>
      simp only [hv] at h
      cases hm : mkdirP fs (relSegs root f) with
      | none => simp only [hm] at h; exact Except.noConfusion h
      | some fs2 =>
        simp only [hm, Except.ok.injEq, Prod.mk.injEq] at h
        obtain ⟨rfl, rfl⟩ := h
        exact validate_ok_isPre hv
  · intro root fs content raw fname ow full fs' h
    simp only [upload_file] at h
    cases hv : validate_path root raw with
    | error e => rw [hv] at h; exact Except.noConfusion h
    | ok f =>
      simp only [hv] at h
      cases hf : findEntry fs (relSegs root f) with
      | none => simp only [hf] at h; exact Except.noConfusion h
      | some e0 =>
        cases e0 with
        | file c => simp only [hf] at h; exact Except.noConfusion h
        | dir es =>
          simp only [hf] at h
          have hpre := validate_ok_isPre hv
          split at h
          · exact Except.noConfusion h
          · split at h
            · exact Except.noConfusion h
            · split at h
              · split at h
                · split at h
                  · simp only [Except.ok.injEq, Prod.mk.injEq] at h
                    exact h.1 ▸ isPrefixOf_append_right hpre
                  · exact Except.noConfusion h
                · exact Except.noConfusion h
              · split at h
                · simp only [Except.ok.injEq, Prod.mk.injEq] at h
                  exact h.1 ▸ isPrefixOf_append_right hpre
                · exact Except.noConfusion h

/-- Witness for C1 at a concrete root, path, and filesystem. -/
theorem c1_containment_witness :
    validate_path [str "r"] (str "docs") = .ok [str "r", str "docs"] ∧
    [str "r"].isPrefixOf [str "r", str "docs"] = true :=
  ⟨by rfl, c1_containment.1 [str "r"] (str "docs") [str "r", str "docs"] (by rfl)⟩

/-- Does the result carry an error with the given HTTP status code? -/
def errStatus {α : Type} (code : Nat) : Except FsErr α → Bool
  | .error e => e.statusCode = code
  | .ok _ => false

/-- Counterexample to claim C2 as stated: the input string `"/docs"` has a
leading `/`, yet `_validate_path` accepts it (the code strips leading and
trailing slashes at line 60 before running the traversal checks at
line 63). -/
theorem c2_counterexample :
    validate_path [str "r"] (str "/docs") = .ok [str "r", str "docs"] := by rfl

/-- Claim C2, amended: the leading-slash rejection applies to the string
after the code's trimming (whitespace, then `/`, then `\`, from both ends),
not to the raw input.  For every string containing `..` anywhere, containing
a `:` anywhere, or whose trimmed form starts with `/`, resolution fails with
a 400 error; and whenever resolution succeeds the resolved absolute path is
inside the storage root (in this symlink-free model no input without those
markers can resolve outside it). -/
theorem c2_amended :
    (∀ (root : PathT) (s : List Char),
        containsSub (str "..") s = true ∨ ':' ∈ s ∨ (pyTrim s).head? = some '/' →
        errStatus 400 (validate_path root s) = true) ∧
    (∀ (root : PathT) (s : List Char) (full : PathT),
        validate_path root s = .ok full → root.isPrefixOf full = true) := by
  refine ⟨?_, fun _ _ _ h => validate_ok_isPre h⟩
  intro root s hyp
  simp only [validate_path]
  split
  · rfl
  · rw [if_pos]
    · rfl
    · rcases hyp with h | h | h
      · exact Or.inl (containsSub_pyTrim h)
      · exact Or.inr (Or.inr (mem_pyTrim h))
      · exact Or.inr (Or.inl h)

/-- Witness for the amended C2 at concrete inputs. -/
theorem c2_amended_witness :
    (containsSub (str "..") (str "a/../b") = true ∨ ':' ∈ str "a/../b" ∨
      (pyTrim (str "a/../b")).head? = some '/') ∧
    errStatus 400 (validate_path [str "r"] (str "a/../b")) = true :=
  ⟨Or.inl (by decide), c2_amended.1 [str "r"] (str "a/../b") (Or.inl (by decide))⟩

/-! ### Length lemmas for trimming (claim C10) -/

theorem length_dropWhile_le' (p : Char → Bool) (s : List Char) :
    (s.dropWhile p).length ≤ s.length := by
  induction s with
  | nil => simp
  | cons a rest ih =>
    by_cases hpa : p a = true
    · rw [List.dropWhile_cons_of_pos hpa]
      exact le_trans ih (by simp)
    · rw [List.dropWhile_cons_of_neg hpa]

theorem dropWhile_eq_self_of_length {p : Char → Bool} {s : List Char}
    (h : (s.dropWhile p).length = s.length) : s.dropWhile p = s := by
  induction s with
  | nil => rfl
  | cons a rest ih =>
    by_cases hpa : p a = true
    · rw [List.dropWhile_cons_of_pos hpa] at h
      have := length_dropWhile_le' p rest
      simp at h
      omega
    · rw [List.dropWhile_cons_of_neg hpa]

theorem stripBy_length_le (p : Char → Bool) (s : List Char) :
    (stripBy p s).length ≤ s.length := by
  unfold stripBy
  calc ((s.dropWhile p).reverse.dropWhile p).reverse.length
      = ((s.dropWhile p).reverse.dropWhile p).length := by simp
    _ ≤ (s.dropWhile p).reverse.length := length_dropWhile_le' _ _
    _ = (s.dropWhile p).length := by simp
    _ ≤ s.length := length_dropWhile_le' _ _

theorem stripBy_eq_self_of_length {p : Char → Bool} {s : List Char}
    (h : (stripBy p s).length = s.length) : stripBy p s = s := by
  have h1 : (s.dropWhile p).length = s.length := by
    have a1 := length_dropWhile_le' p s
    have a2 := length_dropWhile_le' p (s.dropWhile p).reverse
    unfold stripBy at h
    simp only [List.length_reverse] at h a2
    omega
  have h2 : s.dropWhile p = s := dropWhile_eq_self_of_length h1
  have h3 : (s.reverse.dropWhile p).length = s.length := by
    unfold stripBy at h
    rw [h2] at h
    simpa using h
  have h4 : s.reverse.dropWhile p = s.reverse := by
    apply dropWhile_eq_self_of_length
    simpa using h3
  unfold stripBy
  rw [h2, h4]
  simp

theorem wsStrip_eq_self_of_pyTrim {t : List Char} (h : pyTrim t = t) : wsStrip t = t := by
  have l1 := stripBy_length_le pyWS t
  have l2 := stripBy_length_le (fun a => decide (a = '/')) (stripBy pyWS t)
  have l3 := stripBy_length_le (fun a => decide (a = '\\'))
    (stripBy (fun a => decide (a = '/')) (stripBy pyWS t))
  have hl : (pyTrim t).length = t.length := by rw [h]
  simp only [pyTrim, stripCh, wsStrip] at hl
  unfold wsStrip
  exact stripBy_eq_self_of_length (by omega)

/-- Counterexample to claim C10 as stated: `"/"` has a non-empty
whitespace-stripped form, and `_validate_path("/")` succeeds (resolving to
the storage root itself), but applying `_validate_path` to its fully trimmed
form — the empty string — fails with "Path cannot be empty". -/
theorem c10_counterexample :
    wsStrip (str "/") ≠ [] ∧
    validate_path [str "r"] (str "/") = .ok [str "r"] ∧
    validate_path [str "r"] (pyTrim (str "/")) = .error .emptyPath := by
  refine ⟨by decide, by rfl, by rfl⟩

/-- Claim C10, amended: trimming invariance holds for inputs whose fully
trimmed form (whitespace, then `/`, then `\`, stripped from both ends) is
non-empty and is itself a fixed point of that trimming (the code applies the
three strips once, so trimming is not idempotent in general — for example
`" / a/ "` trims to `" a"`, which trims again to `"a"`).  For such inputs,
`_validate_path(s)` succeeds or fails exactly as `_validate_path` of the
trimmed form, with the same absolute path on success; in particular
`"/docs"` is treated identically to `"docs"`. -/
theorem c10_amended (root : PathT) (s : List Char) (h1 : pyTrim s ≠ [])
    (h2 : pyTrim (pyTrim s) = pyTrim s) :
    validate_path root s = validate_path root (pyTrim s) := by
  obtain ⟨hs, hw⟩ := wsStrip_ne_nil_of_pyTrim h1
  have hwt : wsStrip (pyTrim s) = pyTrim s := wsStrip_eq_self_of_pyTrim h2
  simp only [validate_path]
  conv_lhs => rw [if_neg (by simp [hs, hw])]
  conv_rhs => rw [if_neg (by rw [hwt]; simp [h1])]
  rw [h2]

/-- Witness for the amended C10: `"/docs"` versus its trimmed form
`"docs"`. -/
theorem c10_amended_witness :
    pyTrim (str "/docs") ≠ [] ∧
    pyTrim (pyTrim (str "/docs")) = pyTrim (str "/docs") ∧
    validate_path [str "r"] (str "/docs") = validate_path [str "r"] (pyTrim (str "/docs")) :=
  ⟨by decide, by decide, c10_amended [str "r"] (str "/docs") (by decide) (by decide)⟩

/-! ### Association list and `mkdir` lemmas (claim C6) -/

theorem updateFirst_self {n : Seg} {c : FSEntry} {es : List (Seg × FSEntry)}
    (h : lookupFirst n es = some c) : updateFirst n c es = es := by
  induction es with
  | nil => rfl
  | cons p rest ih =>
    obtain ⟨m, e⟩ := p
    by_cases hm : m = n
    · simp only [lookupFirst, if_pos hm] at h
      cases h
      simp [updateFirst, hm]
    · simp only [lookupFirst, if_neg hm] at h
      simp [updateFirst, hm, ih h]

theorem lookupFirst_updateFirst {n : Seg} {c v : FSEntry} {es : List (Seg × FSEntry)}
    (h : lookupFirst n es = some c) : lookupFirst n (updateFirst n v es) = some v := by
  induction es with
  | nil => cases h
  | cons p rest ih =>
    obtain ⟨m, e⟩ := p
    by_cases hm : m = n
    · simp [updateFirst, lookupFirst, hm]
    · simp only [lookupFirst, if_neg hm] at h
      simp [updateFirst, lookupFirst, hm, ih h]

theorem lookupFirst_append_none {n : Seg} {es xs : List (Seg × FSEntry)}
    (h : lookupFirst n es = none) : lookupFirst n (es ++ xs) = lookupFirst n xs := by
  induction es with
  | nil => rfl
  | cons p rest ih =>
    obtain ⟨m, e⟩ := p
    by_cases hm : m = n
    · simp [lookupFirst, hm] at h
    · simp only [lookupFirst, if_neg hm] at h
      simp [lookupFirst, hm, ih h]

theorem findEntry_freshDirs (p : PathT) : findEntry (freshDirs p) p = some (.dir []) := by
  induction p with
  | nil => rfl
  | cons n rest ih => simp [freshDirs, findEntry, lookupFirst, ih]

theorem mkdirP_of_dir {fs : FSEntry} {p : PathT} {es : List (Seg × FSEntry)}
    (h : findEntry fs p = some (.dir es)) : mkdirP fs p = some fs := by
  induction p generalizing fs with
  | nil =>
    simp only [findEntry, Option.some.injEq] at h
    subst h
    rfl
  | cons n rest ih =>
    cases fs with
    | file c => simp [findEntry] at h
    | dir es0 =>
      simp only [findEntry] at h
      cases hl : lookupFirst n es0 with
      | none => rw [hl] at h; cases h
      | some c =>
        rw [hl] at h
        simp only [mkdirP, hl, ih h, updateFirst_self hl]

theorem mkdirP_findEntry {fs fs' : FSEntry} {p : PathT} (h : mkdirP fs p = some fs') :
    ∃ es, findEntry fs' p = some (.dir es) := by
  induction p generalizing fs fs' with
  | nil =>
    cases fs with
    | file c => cases h
    | dir es =>
      simp only [mkdirP, Option.some.injEq] at h
      exact ⟨es, by rw [← h]; rfl⟩
  | cons n rest ih =>
    cases fs with
    | file c => cases h
    | dir es0 =>
      simp only [mkdirP] at h
      cases hl : lookupFirst n es0 with
      | some c =>
        simp only [hl] at h
        cases hm : mkdirP c rest with
        | none => simp only [hm] at h; exact Option.noConfusion h
        | some c' =>
          simp only [hm, Option.some.injEq] at h
          subst h
          obtain ⟨es1, he⟩ := ih hm
          exact ⟨es1, by simp [findEntry, lookupFirst_updateFirst hl, he]⟩
      | none =>
        simp only [hl, Option.some.injEq] at h
        subst h
        refine ⟨[], ?_⟩
        simp only [findEntry, lookupFirst_append_none hl, lookupFirst, if_pos rfl]
        exact findEntry_freshDirs rest

/-- Counterexample to claim C6 as stated: the path `"f"` is valid (validation
succeeds), but when a regular file occupies it, the first `create_folder`
call already fails — `mkdir` raises `FileExistsError`, surfaced as HTTP 500 —
so "calling create_folder(p) twice succeeds both times" does not hold for
every valid path. -/
theorem c6_counterexample :
    validate_path [str "r"] (str "f") = .ok [str "r", str "f"] ∧
    create_folder [str "r"] (.dir [(str "f", .file [])]) (str "f") =
      .error .internalErr := ⟨by rfl, by rfl⟩

/-- Claim C6, amended: whenever a `create_folder(p)` call succeeds, calling it
again immediately succeeds with the same returned path and leaves the
directory state identical to the state after the first call; and if the
folder already exists, `create_folder` succeeds without error and changes
nothing. -/
theorem c6_amended :
    (∀ (root : PathT) (fs : FSEntry) (raw : List Char) (full : PathT) (fs' : FSEntry),
        create_folder root fs raw = .ok (full, fs') →
        create_folder root fs' raw = .ok (full, fs')) ∧
    (∀ (root : PathT) (fs : FSEntry) (raw : List Char) (full : PathT)
        (es : List (Seg × FSEntry)),
        validate_path root raw = .ok full →
        findEntry fs (relSegs root full) = some (.dir es) →
        create_folder root fs raw = .ok (full, fs)) := by
  constructor
  · intro root fs raw full fs' h
    unfold create_folder at h ⊢
    cases hv : validate_path root raw with
    | error e => simp only [hv] at h; exact Except.noConfusion h
    | ok f =>
      simp only [hv] at h ⊢
      cases hm : mkdirP fs (relSegs root f) with
      | none => simp only [hm] at h; exact Except.noConfusion h
      | some fs2 =>
        simp only [hm, Except.ok.injEq, Prod.mk.injEq] at h
        obtain ⟨rfl, rfl⟩ := h
        obtain ⟨es, he⟩ := mkdirP_findEntry hm
        simp only [mkdirP_of_dir he]
  · intro root fs raw full es hv hd
    unfold create_folder
    simp only [hv, mkdirP_of_dir hd]

/-- Witness for the amended C6: creating `"a/b"` in an empty root, twice. -/
theorem c6_amended_witness :
    create_folder [str "r"] (.dir []) (str "a/b") =
      .ok ([str "r", str "a", str "b"],
        .dir [(str "a", .dir [(str "b", .dir [])])]) ∧
    create_folder [str "r"] (.dir [(str "a", .dir [(str "b", .dir [])])]) (str "a/b") =
      .ok ([str "r", str "a", str "b"],
        .dir [(str "a", .dir [(str "b", .dir [])])]) :=
  ⟨by rfl, c6_amended.1 [str "r"] (.dir []) (str "a/b") _ _ (by rfl)⟩

/-! ### Upload lemmas (claim C7) -/

theorem findEntry_append (fs : FSEntry) (p q : PathT) :
    findEntry fs (p ++ q) = (findEntry fs p).bind (fun e => findEntry e q) := by
  induction p generalizing fs with
  | nil => simp [findEntry]
  | cons n rest ih =>
    cases fs with
    | file c => simp [findEntry]
    | dir es =>
      simp only [List.cons_append, findEntry]
      cases lookupFirst n es with
      | none => simp
      | some c => exact ih c

theorem splitOnChar_no_sep {c : Char} {s : List Char} (h : c ∉ s) :
    splitOnChar c s = [s] := by
  induction s with
  | nil => rfl
  | cons a rest ih =>
    have ha : a ≠ c := fun hh => h (hh ▸ List.mem_cons_self a rest)
    have hr : c ∉ rest := fun hh => h (List.mem_cons_of_mem a hh)
    simp only [splitOnChar, ih hr, if_neg ha]

theorem writeFile_read {content : List Nat} {fs fs' : FSEntry} {p : PathT}
    (h : writeFile content fs p = some fs') : findEntry fs' p = some (.file content) := by
  induction p generalizing fs fs' with
  | nil =>
    cases fs with
    | file c =>
      simp only [writeFile, Option.some.injEq] at h
      subst h
      rfl
    | dir es => exact Option.noConfusion h
  | cons n rest ih =>
    cases fs with
    | file c => exact Option.noConfusion h
    | dir es =>
      simp only [writeFile] at h
      cases hl : lookupFirst n es with
      | some c =>
        simp only [hl] at h
        cases hw : writeFile content c rest with
        | none => simp only [hw] at h; exact Option.noConfusion h
        | some c' =>
          simp only [hw, Option.some.injEq] at h
          subst h
          simp [findEntry, lookupFirst_updateFirst hl, ih hw]
      | none =>
        simp only [hl] at h
        cases rest with
        | cons r rs => exact Option.noConfusion h
        | nil =>
          simp only [Option.some.injEq] at h
          subst h
          simp [findEntry, lookupFirst_append_none hl, lookupFirst]

theorem writeFile_isSome_of_file {content old : List Nat} {fs : FSEntry} {p : PathT}
    (h : findEntry fs p = some (.file old)) : (writeFile content fs p).isSome = true := by
  induction p generalizing fs with
  | nil =>
    simp only [findEntry, Option.some.injEq] at h
    subst h
    rfl
  | cons n rest ih =>
    cases fs with
    | file c => simp [findEntry] at h
    | dir es =>
      simp only [findEntry] at h
      cases hl : lookupFirst n es with
      | none => rw [hl] at h; exact Option.noConfusion h
      | some c =>
        rw [hl] at h
        have := ih h
        simp only [writeFile, hl]
        cases hw : writeFile content c rest with
        | none => rw [hw] at this; exact Bool.noConfusion this
        | some c' => rfl

/-- The filesystem state after `file_path.write_bytes(content)` at a path
where the write succeeds. -/
def overwriteAt (content : List Nat) (fs : FSEntry) (p : PathT) : FSEntry :=
  (writeFile content fs p).getD fs

/-- Claim C7: uploading over an existing file with `overwrite=false` fails
with Conflict (HTTP 409) — the write never happens, so the existing bytes are
untouched — and with `overwrite=true` it succeeds and fully replaces the
file's content with the new bytes. -/
theorem c7_upload_overwrite (root : PathT) (fs : FSEntry) (content old : List Nat)
    (raw fname : List Char) (full : PathT) (es : List (Seg × FSEntry))
    (hv : validate_path root raw = .ok full)
    (hd : findEntry fs (relSegs root full) = some (.dir es))
    (hne : fname ≠ []) (hws : wsStrip fname ≠ [])
    (hdd : containsSub (str "..") fname = false)
    (hsl : '/' ∉ fname) (hbs : '\\' ∉ fname) (hdot : fname ≠ str ".")
    (hex : lookupFirst fname es = some (.file old)) :
    upload_file root fs content raw fname false = .error .conflict ∧
    upload_file root fs content raw fname true =
      .ok (full ++ [fname], overwriteAt content fs (relSegs root full ++ [fname])) ∧
    findEntry (overwriteAt content fs (relSegs root full ++ [fname]))
      (relSegs root full ++ [fname]) = some (.file content) := by
  have hsegs : (splitOnChar '/' fname).filter (fun s => ¬(s = [] ∨ s = str ".")) = [fname] := by
    rw [splitOnChar_no_sep hsl]
    simp [List.filter, hne, hdot]
  have hfind : findEntry fs (relSegs root full ++ [fname]) = some (.file old) := by
    rw [findEntry_append, hd]
    simp [findEntry, hex]
  have hwr : (writeFile content fs (relSegs root full ++ [fname])).isSome = true :=
    writeFile_isSome_of_file hfind
  obtain ⟨w, hw⟩ := Option.isSome_iff_exists.mp hwr
  have hover : overwriteAt content fs (relSegs root full ++ [fname]) = w := by
    simp [overwriteAt, hw]
  have hnot1 : ¬(fname = [] ∨ wsStrip fname = []) := fun h => h.elim hne hws
  have hnot2 : ¬(containsSub (str "..") fname = true ∨ '/' ∈ fname ∨ '\\' ∈ fname) := by
    rintro (hc | hc | hc)
    · rw [hdd] at hc; exact Bool.noConfusion hc
    · exact hsl hc
    · exact hbs hc
  refine ⟨?_, ?_, ?_⟩
  · simp only [upload_file, hv, hd, hsegs, hfind]
    rw [if_neg hnot1, if_neg hnot2]
    simp
  · simp only [upload_file, hv, hd, hsegs, hfind, hw]
    rw [if_neg hnot1, if_neg hnot2]
    simp [hover]
  · rw [hover]
    exact writeFile_read hw

/-- Witness for C7: a folder `"d"` containing file `"f.txt"` with bytes
`[1, 2]`, uploaded over with bytes `[9]`. -/
theorem c7_upload_overwrite_witness :
    validate_path [str "r"] (str "d") = .ok [str "r", str "d"] ∧
    findEntry (.dir [(str "d", .dir [(str "f.txt", .file [1, 2])])])
      (relSegs [str "r"] [str "r", str "d"]) =
      some (.dir [(str "f.txt", .file [1, 2])]) ∧
    upload_file [str "r"] (.dir [(str "d", .dir [(str "f.txt", .file [1, 2])])])
      [9] (str "d") (str "f.txt") false = .error .conflict ∧
    upload_file [str "r"] (.dir [(str "d", .dir [(str "f.txt", .file [1, 2])])])
      [9] (str "d") (str "f.txt") true =
      .ok ([str "r", str "d", str "f.txt"],
        overwriteAt [9] (.dir [(str "d", .dir [(str "f.txt", .file [1, 2])])])
          (relSegs [str "r"] [str "r", str "d"] ++ [str "f.txt"])) := by
  have h := c7_upload_overwrite [str "r"]
    (.dir [(str "d", .dir [(str "f.txt", .file [1, 2])])]) [9] [1, 2]
    (str "d") (str "f.txt") [str "r", str "d"] [(str "f.txt", .file [1, 2])]
    (by rfl) (by rfl) (by decide) (by decide) (by rfl) (by decide) (by decide)
    (by decide) (by rfl)
  exact ⟨by rfl, by rfl, h.1, h.2.1⟩

/-! ### Delete lemmas (claim C8) -/

theorem wfb_dir {es : List (Seg × FSEntry)} (h : (FSEntry.dir es).wfb = true) :
    nodupKeys es = true ∧ wfbChildren es = true := by
  simpa [FSEntry.wfb, Bool.and_eq_true] using h

theorem wfb_lookup {n : Seg} {c : FSEntry} {es : List (Seg × FSEntry)}
    (hwf : wfbChildren es = true) (h : lookupFirst n es = some c) : c.wfb = true := by
  induction es with
  | nil => cases h
  | cons p rest ih =>
    obtain ⟨m, e⟩ := p
    simp only [wfbChildren, Bool.and_eq_true] at hwf
    by_cases hm : m = n
    · simp only [lookupFirst, if_pos hm, Option.some.injEq] at h
      exact h ▸ hwf.1
    · simp only [lookupFirst, if_neg hm] at h
      exact ih hwf.2 h

theorem lookupFirst_none_of_all {n : Seg} {es : List (Seg × FSEntry)}
    (h : ∀ p ∈ es, p.1 ≠ n) : lookupFirst n es = none := by
  induction es with
  | nil => rfl
  | cons p rest ih =>
    obtain ⟨m, e⟩ := p
    have hm : m ≠ n := h (m, e) (by simp)
    simp only [lookupFirst, if_neg hm]
    exact ih fun q hq => h q (List.mem_cons_of_mem _ hq)

theorem lookupFirst_eraseFirst {n : Seg} {es : List (Seg × FSEntry)}
    (hnd : nodupKeys es = true) : lookupFirst n (eraseFirst n es) = none := by
  induction es with
  | nil => rfl
  | cons p rest ih =>
    obtain ⟨m, e⟩ := p
    simp only [nodupKeys, Bool.and_eq_true, List.all_eq_true] at hnd
    by_cases hm : m = n
    · subst hm
      simp only [eraseFirst, if_pos rfl]
      exact lookupFirst_none_of_all fun q hq => by
        have := hnd.1 q hq
        simpa using this
    · simp only [eraseFirst, if_neg hm, lookupFirst, if_neg hm]
      exact ih hnd.2

theorem removeAt_isSome {fs : FSEntry} {e : FSEntry} {n : Seg} {rest : PathT}
    (h : findEntry fs (n :: rest) = some e) : (removeAt fs (n :: rest)).isSome = true := by
  induction rest generalizing fs n with
  | nil =>
    cases fs with
    | file c => simp [findEntry] at h
    | dir es =>
      simp only [findEntry] at h
      cases hl : lookupFirst n es with
      | none => rw [hl] at h; exact Option.noConfusion h
      | some c => simp [removeAt, hl]
  | cons r rs ih =>
    cases fs with
    | file c => simp [findEntry] at h
    | dir es =>
      simp only [findEntry] at h
      cases hl : lookupFirst n es with
      | none => rw [hl] at h; exact Option.noConfusion h
      | some c =>
        rw [hl] at h
        have := ih h
        simp only [removeAt, hl]
        cases hr : removeAt c (r :: rs) with
        | none => rw [hr] at this; exact Bool.noConfusion this
        | some c' => rfl

theorem removeAt_find_none {fs fs' : FSEntry} {n : Seg} {rest : PathT}
    (hwf : fs.wfb = true) (h : removeAt fs (n :: rest) = some fs') :
    findEntry fs' (n :: rest) = none := by
  induction rest generalizing fs fs' n with
  | nil =>
    cases fs with
    | file c => exact Option.noConfusion h
    | dir es =>
      simp only [removeAt] at h
      cases hl : lookupFirst n es with
      | none => simp only [hl] at h; exact Option.noConfusion h
      | some c =>
        simp only [hl, Option.some.injEq] at h
        subst h
        simp [findEntry, lookupFirst_eraseFirst (wfb_dir hwf).1]
  | cons r rs ih =>
    cases fs with
    | file c => exact Option.noConfusion h
    | dir es =>
      simp only [removeAt] at h
      cases hl : lookupFirst n es with
      | none => simp only [hl] at h; exact Option.noConfusion h
      | some c =>
        simp only [hl] at h
        cases hr : removeAt c (r :: rs) with
        | none => simp only [hr] at h; exact Option.noConfusion h
        | some c' =>
          simp only [hr, Option.some.injEq] at h
          subst h
          have hcwf : c.wfb = true := wfb_lookup (wfb_dir hwf).2 hl
          simp [findEntry, lookupFirst_updateFirst hl, ih hcwf hr]

/-- The state after a successful recursive folder deletion; `none` when the
path is the storage root itself (whose removal leaves no modelled state). -/
def deleteState (fs : FSEntry) (p : PathT) : Option FSEntry :=
  match p with
  | [] => none
  | _ :: _ => some ((removeAt fs p).getD fs)

/-- Look a path up in a possibly-removed state. -/
def stateEntry : Option FSEntry → PathT → Option FSEntry
  | none, _ => none
  | some fs, p => findEntry fs p

/-- Claim C8: on an existing non-empty folder, non-recursive delete fails with
Conflict (HTTP 409) and recursive delete succeeds, removing the folder and
all of its descendants; delete fails with NotFound (404) when the target is
absent and with "Path is not a folder" (400) when it is a file. -/
theorem c8_delete_folder (root : PathT) (fs : FSEntry) (raw : List Char) (full : PathT)
    (hwf : fs.wfb = true) (hv : validate_path root raw = .ok full) :
    (∀ es, findEntry fs (relSegs root full) = some (.dir es) → es ≠ [] →
        delete_folder root fs raw false = .error .conflict) ∧
    (∀ es, findEntry fs (relSegs root full) = some (.dir es) →
        delete_folder root fs raw true = .ok (deleteState fs (relSegs root full)) ∧
        (∀ ext, stateEntry (deleteState fs (relSegs root full))
          (relSegs root full ++ ext) = none)) ∧
    (findEntry fs (relSegs root full) = none →
        ∀ rec, delete_folder root fs raw rec = .error .notFound) ∧
    (∀ c, findEntry fs (relSegs root full) = some (.file c) →
        ∀ rec, delete_folder root fs raw rec = .error .notAFolder) := by
  refine ⟨?_, ?_, ?_, ?_⟩
  · intro es hd hne
    simp only [delete_folder, hv, hd]
    cases es with
    | nil => exact absurd rfl hne
    | cons p ps => simp
  · intro es hd
    cases hsegs : relSegs root full with
    | nil =>
      rw [hsegs] at hd
      constructor
      · simp only [delete_folder, hv, hd, hsegs, deleteState]
        simp
      · intro ext
        simp [deleteState, stateEntry, hsegs]
    | cons n rest =>
      rw [hsegs] at hd
      have hsome := removeAt_isSome hd
      obtain ⟨fs', hrm⟩ := Option.isSome_iff_exists.mp hsome
      have hget : (removeAt fs (n :: rest)).getD fs = fs' := by simp [hrm]
      have hnone : findEntry fs' (n :: rest) = none := removeAt_find_none hwf hrm
      constructor
      · simp only [delete_folder, hv, hd, hsegs, deleteState, hrm, hget]
        simp
      · intro ext
        simp only [deleteState, hsegs, stateEntry, hget]
        rw [findEntry_append, hnone]
        rfl
  · intro hd rec
    simp only [delete_folder, hv, hd]
  · intro c hd rec
    simp only [delete_folder, hv, hd]

/-- Witness for C8 on a concrete tree `a/b/c`. -/
theorem c8_delete_folder_witness :
    (FSEntry.dir [(str "a", .dir [(str "b", .dir [(str "c", .dir [])])])]).wfb = true ∧
    validate_path [str "r"] (str "a") = .ok [str "r", str "a"] ∧
    delete_folder [str "r"]
      (.dir [(str "a", .dir [(str "b", .dir [(str "c", .dir [])])])])
      (str "a") false = .error .conflict ∧
    delete_folder [str "r"]
      (.dir [(str "a", .dir [(str "b", .dir [(str "c", .dir [])])])])
      (str "a") true =
      .ok (deleteState (.dir [(str "a", .dir [(str "b", .dir [(str "c", .dir [])])])])
        (relSegs [str "r"] [str "r", str "a"])) ∧
    stateEntry (deleteState (.dir [(str "a", .dir [(str "b", .dir [(str "c", .dir [])])])])
      (relSegs [str "r"] [str "r", str "a"]))
      (relSegs [str "r"] [str "r", str "a"] ++ [str "b", str "c"]) = none := by
  have h := c8_delete_folder [str "r"]
    (.dir [(str "a", .dir [(str "b", .dir [(str "c", .dir [])])])])
    (str "a") [str "r", str "a"] (by decide) (by rfl)
  refine ⟨by decide, by rfl, ?_, ?_, ?_⟩
  · exact h.1 [(str "b", .dir [(str "c", .dir [])])] (by rfl) (by simp)
  · exact (h.2.1 [(str "b", .dir [(str "c", .dir [])])] (by rfl)).1
  · exact (h.2.1 [(str "b", .dir [(str "c", .dir [])])] (by rfl)).2 [str "b", str "c"]

/-! ### Ordering lemmas (claim C4) -/

theorem lexLEb_total (a b : List Char) : lexLEb a b = true ∨ lexLEb b a = true := by
  induction a generalizing b with
  | nil => left; rfl
  | cons x xs ih =>
    cases b with
    | nil => right; rfl
    | cons y ys =>
      rcases lt_trichotomy x y with h | h | h
      · left; simp [lexLEb, h]
      · subst h
        rcases ih ys with h | h
        · left; simpa [lexLEb, lt_irrefl] using h
        · right; simpa [lexLEb, lt_irrefl] using h
      · right; simp [lexLEb, h]

theorem lexLEb_trans : ∀ {a b c : List Char},
    lexLEb a b = true → lexLEb b c = true → lexLEb a c = true := by
  intro a
  induction a with
  | nil => intro b c _ _; rfl
  | cons x xs ih =>
    intro b c h1 h2
    cases b with
    | nil => exact absurd h1 (by simp [lexLEb])
    | cons y ys =>
      cases c with
      | nil => exact absurd h2 (by simp [lexLEb])
      | cons z zs =>
        rcases lt_trichotomy x y with hxy | hxy | hxy
        · rcases lt_trichotomy y z with hyz | hyz | hyz
          · simp [lexLEb, lt_trans hxy hyz]
          · subst hyz; simp [lexLEb, hxy]
          · simp [lexLEb, hyz, asymm hyz] at h2
        · subst hxy
          rcases lt_trichotomy x z with hyz | hyz | hyz
          · simp [lexLEb, hyz]
          · subst hyz
            simp only [lexLEb, lt_irrefl, if_false] at h1 h2 ⊢
            exact ih h1 h2
          · simp [lexLEb, hyz, asymm hyz] at h2
        · simp [lexLEb, hxy, asymm hxy] at h1

instance : IsTotal Item itemLE where
  total a b := by
    unfold itemLE itemLEb
    by_cases hd : a.isDir = b.isDir
    · rw [hd, if_pos rfl, if_pos rfl]
      exact lexLEb_total _ _
    · rw [if_neg hd, if_neg (fun hh => hd hh.symm)]
      cases ha : a.isDir with
      | true => left; rfl
      | false =>
        cases hb : b.isDir with
        | true => right; rfl
        | false => exact absurd (ha.trans hb.symm) hd

instance : IsTrans Item itemLE where
  trans a b c h1 h2 := by
    unfold itemLE itemLEb at h1 h2 ⊢
    by_cases hab : a.isDir = b.isDir
    · by_cases hbc : b.isDir = c.isDir
      · rw [if_pos hab] at h1
        rw [if_pos hbc] at h2
        rw [if_pos (hab.trans hbc)]
        exact lexLEb_trans h1 h2
      · rw [if_neg hbc] at h2
        rw [if_neg (fun hh : a.isDir = c.isDir => hbc (hab.symm.trans hh)), hab]
        exact h2
    · rw [if_neg hab] at h1
      by_cases hbc : b.isDir = c.isDir
      · rw [if_neg (fun hh : a.isDir = c.isDir => hab (hh.trans hbc.symm))]
        exact h1
      · rw [if_neg hbc] at h2
        have hb : b.isDir = false := by
          cases hb : b.isDir with
          | false => rfl
          | true => exact absurd (h1.trans hb.symm) hab
        rw [hb] at h2
        exact Bool.noConfusion h2

/-- Claim C4: every list returned by `list_items` is one flat sequence sorted
globally by the key (is-file, lowercased name) — all folders precede all
files, and within each kind names are compared case-insensitively — and on
the concrete directory of the specification (file `b.txt`, folder `A`, file
`a.txt`) the listing is `["A", "a.txt", "b.txt"]`. -/
theorem c4_listing_order :
    (∀ (root : PathT) (fs : FSEntry) (rel : Option (List Char)) (recursive : Bool)
        (l : List Item), list_items root fs rel recursive = .ok l →
        l.Sorted itemLE) ∧
    (list_items [str "r"] (.dir [(str "b.txt", .file [1]), (str "A", .dir []),
        (str "a.txt", .file [])]) none true).map (fun l => l.map Item.name) =
      .ok [str "A", str "a.txt", str "b.txt"] := by
  constructor
  · intro root fs rel recursive l h
    unfold list_items at h
    cases rel with
    | none =>
      cases fs with
      | file c => exact Except.noConfusion h
      | dir es =>
        simp only [Except.ok.injEq] at h
        subst h
        exact List.sorted_insertionSort itemLE _
    | some raw =>
      cases hv : validate_path root raw with
      | error e => simp only [hv] at h; exact Except.noConfusion h
      | ok f =>
        simp only [hv] at h
        cases hf : findEntry fs (relSegs root f) with
        | none => simp only [hf] at h; exact Except.noConfusion h
        | some e0 =>
          cases e0 with
          | file c => simp only [hf] at h; exact Except.noConfusion h
          | dir es =>
            simp only [hf, Except.ok.injEq] at h
            subst h
            exact List.sorted_insertionSort itemLE _
  · rfl

/-- Witness for C4's general part at the concrete directory of the example. -/
theorem c4_listing_order_witness :
    list_items [str "r"] (.dir [(str "b.txt", .file [1]), (str "A", .dir []),
        (str "a.txt", .file [])]) none true =
      .ok [⟨str "A", true, [str "A"], none⟩,
        ⟨str "a.txt", false, [str "a.txt"], some 0⟩,
        ⟨str "b.txt", false, [str "b.txt"], some 1⟩] ∧
    List.Sorted itemLE [⟨str "A", true, [str "A"], none⟩,
        ⟨str "a.txt", false, [str "a.txt"], some 0⟩,
        ⟨str "b.txt", false, [str "b.txt"], some 1⟩] :=
  ⟨by rfl,
    c4_listing_order.1 [str "r"]
      (.dir [(str "b.txt", .file [1]), (str "A", .dir []), (str "a.txt", .file [])])
      none true
      [⟨str "A", true, [str "A"], none⟩,
        ⟨str "a.txt", false, [str "a.txt"], some 0⟩,
        ⟨str "b.txt", false, [str "b.txt"], some 1⟩] (by rfl)⟩

/-! ### Count lemmas (claim C5) -/

theorem filter_isDir_length (its : List Item) :
    (its.filter (fun it => it.isDir = false)).length +
      (its.filter (fun it => it.isDir = true)).length = its.length := by
  induction its with
  | nil => rfl
  | cons it rest ih =>
    cases hd : it.isDir <;> simp [List.filter_cons, hd] at ih ⊢ <;> omega

/-- Claim C5: the `total_files` and `total_folders` of `get_tree` sum to the
number of entries returned by `list_items` on the same base path with
`recursive=True` — every descendant entry is counted exactly once. -/
theorem c5_tree_counts (root : PathT) (fs : FSEntry) (rel : Option (List Char))
    (t : TreeResult) (l : List Item)
    (ht : get_tree root fs rel = .ok t) (hl : list_items root fs rel true = .ok l) :
    t.total_files + t.total_folders = l.length := by
  cases rel with
  | none =>
    cases fs with
    | file c => exact Except.noConfusion ht
    | dir es =>
      simp only [get_tree, Except.ok.injEq] at ht
      simp only [list_items, if_true, Except.ok.injEq] at hl
      subst ht
      subst hl
      simp only [buildTree, List.length_insertionSort]
      exact filter_isDir_length _
  | some raw =>
    cases hv : validate_path root raw with
    | error e =>
      simp only [get_tree, hv] at ht
      exact Except.noConfusion ht
    | ok f =>
      simp only [get_tree, hv] at ht
      simp only [list_items, hv] at hl
      cases hf : findEntry fs (relSegs root f) with
      | none => simp only [hf] at ht; exact Except.noConfusion ht
      | some e0 =>
        cases e0 with
        | file c => simp only [hf] at ht; exact Except.noConfusion ht
        | dir es =>
          simp only [hf, Except.ok.injEq] at ht hl
          subst ht
          rw [if_pos (by trivial)] at hl
          subst hl
          simp only [buildTree, List.length_insertionSort]
          exact filter_isDir_length _

/-- Witness for C5 on a concrete two-level tree. -/
theorem c5_tree_counts_witness :
    get_tree [str "r"] (.dir [(str "a", .dir [(str "x.txt", .file [1, 2])]),
        (str "b.txt", .file [7])]) none =
      .ok (buildTree (walkChildren [] [(str "a", .dir [(str "x.txt", .file [1, 2])]),
        (str "b.txt", .file [7])])) ∧
    list_items [str "r"] (.dir [(str "a", .dir [(str "x.txt", .file [1, 2])]),
        (str "b.txt", .file [7])]) none true =
      .ok (List.insertionSort itemLE (walkChildren []
        [(str "a", .dir [(str "x.txt", .file [1, 2])]), (str "b.txt", .file [7])])) ∧
    (buildTree (walkChildren [] [(str "a", .dir [(str "x.txt", .file [1, 2])]),
        (str "b.txt", .file [7])])).total_files +
      (buildTree (walkChildren [] [(str "a", .dir [(str "x.txt", .file [1, 2])]),
        (str "b.txt", .file [7])])).total_folders =
      (List.insertionSort itemLE (walkChildren []
        [(str "a", .dir [(str "x.txt", .file [1, 2])]), (str "b.txt", .file [7])])).length :=
  ⟨by rfl, by rfl,
    c5_tree_counts [str "r"]
      (.dir [(str "a", .dir [(str "x.txt", .file [1, 2])]), (str "b.txt", .file [7])]) none
      (buildTree (walkChildren [] [(str "a", .dir [(str "x.txt", .file [1, 2])]),
        (str "b.txt", .file [7])]))
      (List.insertionSort itemLE (walkChildren []
        [(str "a", .dir [(str "x.txt", .file [1, 2])]), (str "b.txt", .file [7])]))
      (by rfl) (by rfl)⟩

/-! ### Tree-construction machinery (claims C3 and C9) -/

/-- All item/number pairs placed by the linking loop, whether as roots or as
appended children. -/
def nodesOf (st : BState) : List (Nat × Item) :=
  st.roots ++ st.appends.map (fun t => (t.2.1, t.2.2))

/-- All `relative_path` values reachable by recursively flattening a tree
node (the specification's flattening of the nested structure). -/
def TreeNode.flattenParts : TreeNode → List PathT
  | .mk _ _ p _ none => [p]
  | .mk _ _ p _ (some cs) => p :: cs.attach.flatMap (fun c => c.1.flattenParts)
decreasing_by
  simp_wf
  have := List.sizeOf_lt_of_mem c.2
  omega

/-- All nodes of a tree, the node itself included. -/
def TreeNode.allNodes : TreeNode → List TreeNode
  | .mk n d p s none => [.mk n d p s none]
  | .mk n d p s (some cs) => .mk n d p s (some cs) :: cs.attach.flatMap (fun c => c.1.allNodes)
decreasing_by
  simp_wf
  have := List.sizeOf_lt_of_mem c.2
  omega

/-- The claim-C9 invariant at one node: `children` is non-null exactly on
folders. -/
def nodeOk (t : TreeNode) : Bool := t.children.isSome == t.isDir

theorem flattenParts_none (n : Seg) (d : Bool) (p : PathT) (s : Option Nat) :
    (TreeNode.mk n d p s none).flattenParts = [p] := by
  simp [TreeNode.flattenParts]

theorem flattenParts_some (n : Seg) (d : Bool) (p : PathT) (s : Option Nat)
    (cs : List TreeNode) :
    (TreeNode.mk n d p s (some cs)).flattenParts =
      p :: cs.flatMap TreeNode.flattenParts := by
  simp only [TreeNode.flattenParts]
  rw [show cs.flatMap TreeNode.flattenParts =
    (cs.attach.map Subtype.val).flatMap TreeNode.flattenParts by
      rw [List.attach_map_subtype_val], List.flatMap_map]

theorem allNodes_none (n : Seg) (d : Bool) (p : PathT) (s : Option Nat) :
    (TreeNode.mk n d p s none).allNodes = [.mk n d p s none] := by
  simp [TreeNode.allNodes]

theorem allNodes_some (n : Seg) (d : Bool) (p : PathT) (s : Option Nat)
    (cs : List TreeNode) :
    (TreeNode.mk n d p s (some cs)).allNodes =
      .mk n d p s (some cs) :: cs.flatMap TreeNode.allNodes := by
  simp only [TreeNode.allNodes]
  rw [show cs.flatMap TreeNode.allNodes =
    (cs.attach.map Subtype.val).flatMap TreeNode.allNodes by
      rw [List.attach_map_subtype_val], List.flatMap_map]

theorem tmapGet_mem {q : PathT} {i : Nat} {m : List (PathT × Nat)}
    (h : tmapGet q m = some i) : (q, i) ∈ m := by
  induction m with
  | nil => cases h
  | cons p rest ih =>
    obtain ⟨p1, j⟩ := p
    by_cases hp : p1 = q
    · subst hp
      simp [tmapGet] at h
      subst h
      exact List.mem_cons_self _ _
    · simp only [tmapGet, if_neg hp] at h
      exact List.mem_cons_of_mem _ (ih h)

theorem childPairs_of_append {st : BState} {p i : Nat} {it : Item}
    (h : (p, i, it) ∈ st.appends) : (i, it) ∈ childPairs st p := by
  unfold childPairs
  exact List.mem_filterMap.mpr ⟨(p, i, it), h, by simp⟩

theorem append_of_childPairs {st : BState} {p j : Nat} {itj : Item}
    (h : (j, itj) ∈ childPairs st p) : (p, j, itj) ∈ st.appends := by
  unfold childPairs at h
  obtain ⟨t, ht, he⟩ := List.mem_filterMap.mp h
  obtain ⟨t1, t2, t3⟩ := t
  by_cases hp : t1 = p
  · rw [if_pos hp] at he
    simp only [Option.some.injEq, Prod.mk.injEq] at he
    obtain ⟨rfl, rfl⟩ := he
    rw [← hp]
    exact ht
  · rw [if_neg hp] at he
    exact Option.noConfusion he

theorem bstep_next (st : BState) (it : Item) : (bstep st it).next = st.next + 1 := by
  unfold bstep
  split
  · rfl
  · split <;> rfl

theorem bstep_tmap (st : BState) (it : Item) :
    (bstep st it).tmap = (it.parts, st.next) :: st.tmap := by
  unfold bstep
  split
  · rfl
  · split <;> rfl

theorem bstep_appends (st : BState) (it : Item) :
    (bstep st it).appends = st.appends ∨
    ∃ p, (bstep st it).appends = st.appends ++ [(p, st.next, it)] ∧
      tmapGet it.parts.dropLast st.tmap = some p ∧ it.parts.length - 1 ≠ 0 := by
  unfold bstep
  split
  · left; rfl
  · rename_i hlen
    cases hg : tmapGet it.parts.dropLast st.tmap with
    | some p => right; exact ⟨p, by simp [hg], rfl, hlen⟩
    | none => left; simp [hg]

theorem bstep_roots (st : BState) (it : Item) :
    (bstep st it).roots = st.roots ∨ (bstep st it).roots = st.roots ++ [(st.next, it)] := by
  unfold bstep
  split
  · right; rfl
  · cases hg : tmapGet it.parts.dropLast st.tmap with
    | some p => left; simp [hg]
    | none => right; simp [hg]

theorem mem_nodesOf_bstep {st : BState} {it : Item} {x : Nat × Item} :
    x ∈ nodesOf (bstep st it) ↔ x ∈ nodesOf st ∨ x = (st.next, it) := by
  unfold nodesOf bstep
  split
  · simp [List.mem_append, List.mem_map]
    tauto
  · cases hg : tmapGet it.parts.dropLast st.tmap with
    | some p =>
      simp [hg, List.mem_append, List.mem_map]
      tauto
    | none =>
      simp [hg, List.mem_append, List.mem_map]
      tauto

/-- Invariant of the linking loop's state: `tree_map` entries point at placed
nodes carrying the recorded path; node numbers are below the counter and
identify their item uniquely; every recorded append points at a placed parent
node whose path is the child's path without its last segment; appended items
have depth at least one; and every placed item comes from the processed
list. -/
structure StInv (univ : List Item) (st : BState) : Prop where
  tmap_nodes : ∀ q j, (q, j) ∈ st.tmap → ∃ it, (j, it) ∈ nodesOf st ∧ it.parts = q
  nodes_lt : ∀ j it, (j, it) ∈ nodesOf st → j < st.next
  nodes_fn : ∀ j it1 it2, (j, it1) ∈ nodesOf st → (j, it2) ∈ nodesOf st → it1 = it2
  app_parent : ∀ p i it, (p, i, it) ∈ st.appends →
    ∃ itp, (p, itp) ∈ nodesOf st ∧ itp.parts = it.parts.dropLast
  app_len : ∀ p i it, (p, i, it) ∈ st.appends → 2 ≤ it.parts.length
  nodes_mem : ∀ j it, (j, it) ∈ nodesOf st → it ∈ univ

theorem stInv_bstep {univ : List Item} {st : BState} {it : Item}
    (inv : StInv univ st) (hu : it ∈ univ) : StInv univ (bstep st it) := by
  have happ := bstep_appends st it
  constructor
  · intro q j h
    rw [bstep_tmap] at h
    rcases List.mem_cons.mp h with he | h
    · obtain ⟨rfl, rfl⟩ := Prod.mk.injEq .. ▸ he
      exact ⟨it, mem_nodesOf_bstep.mpr (Or.inr rfl), rfl⟩
    · obtain ⟨it', hn, hp⟩ := inv.tmap_nodes q j h
      exact ⟨it', mem_nodesOf_bstep.mpr (Or.inl hn), hp⟩
  · intro j it' h
    rw [bstep_next]
    rcases mem_nodesOf_bstep.mp h with h | h
    · exact Nat.lt_succ_of_lt (inv.nodes_lt j it' h)
    · obtain ⟨rfl, rfl⟩ := Prod.mk.injEq .. ▸ h
      exact Nat.lt_succ_self _
  · intro j a b ha hb
    rcases mem_nodesOf_bstep.mp ha with ha' | ha' <;>
      rcases mem_nodesOf_bstep.mp hb with hb' | hb'
    · exact inv.nodes_fn j a b ha' hb'
    · obtain ⟨h1, h2⟩ := Prod.mk.injEq .. ▸ hb'
      exact absurd (h1 ▸ inv.nodes_lt j a ha') (Nat.lt_irrefl _)
    · obtain ⟨h1, h2⟩ := Prod.mk.injEq .. ▸ ha'
      exact absurd (h1 ▸ inv.nodes_lt j b hb') (Nat.lt_irrefl _)
    · obtain ⟨h1, h2⟩ := Prod.mk.injEq .. ▸ ha'
      obtain ⟨h3, h4⟩ := Prod.mk.injEq .. ▸ hb'
      exact h2.trans h4.symm
  · intro p i x h
    rcases happ with he | ⟨p0, he, hg, hlen⟩
    · rw [he] at h
      obtain ⟨itp, hn, hp⟩ := inv.app_parent p i x h
      exact ⟨itp, mem_nodesOf_bstep.mpr (Or.inl hn), hp⟩
    · rw [he] at h
      rcases List.mem_append.mp h with h | h
      · obtain ⟨itp, hn, hp⟩ := inv.app_parent p i x h
        exact ⟨itp, mem_nodesOf_bstep.mpr (Or.inl hn), hp⟩
      · rcases List.mem_singleton.mp h with he2
        obtain ⟨rfl, rfl, rfl⟩ : p = p0 ∧ i = st.next ∧ x = it := by
          have := Prod.mk.injEq .. ▸ he2
          exact ⟨this.1, (Prod.mk.injEq .. ▸ this.2).1, (Prod.mk.injEq .. ▸ this.2).2⟩
        obtain ⟨itp, hn, hp⟩ := inv.tmap_nodes _ _ (tmapGet_mem hg)
        exact ⟨itp, mem_nodesOf_bstep.mpr (Or.inl hn), hp⟩
  · intro p i x h
    rcases happ with he | ⟨p0, he, hg, hlen⟩
    · rw [he] at h
      exact inv.app_len p i x h
    · rw [he] at h
      rcases List.mem_append.mp h with h | h
      · exact inv.app_len p i x h
      · rcases List.mem_singleton.mp h with he2
        have hx : x = it := by
          have := Prod.mk.injEq .. ▸ he2
          exact (Prod.mk.injEq .. ▸ this.2).2
        subst hx
        omega
  · intro j it' h
    rcases mem_nodesOf_bstep.mp h with h | h
    · exact inv.nodes_mem j it' h
    · obtain ⟨h1, h2⟩ := Prod.mk.injEq .. ▸ h
      exact h2 ▸ hu

theorem stInv_foldl {univ : List Item} :
    ∀ (l : List Item) (st : BState), StInv univ st → (∀ x ∈ l, x ∈ univ) →
      StInv univ (l.foldl bstep st)
  | [], _, inv, _ => inv
  | a :: rest, st, inv, hl =>
    stInv_foldl rest (bstep st a)
      (stInv_bstep inv (hl a (List.mem_cons_self a rest)))
      (fun x hx => hl x (List.mem_cons_of_mem a hx))

theorem stInv_buildState (l : List Item) : StInv l (buildState l) := by
  refine stInv_foldl l _ ⟨?_, ?_, ?_, ?_, ?_, ?_⟩ (fun x hx => hx)
  · intro q j h
    exact absurd h (List.not_mem_nil _)
  · intro j it h
    simp [nodesOf] at h
  · intro j a b ha hb
    simp [nodesOf] at ha
  · intro p i it h
    exact absurd h (List.not_mem_nil _)
  · intro p i it h
    exact absurd h (List.not_mem_nil _)
  · intro j it h
    simp [nodesOf] at h

theorem nodesOf_foldl_mono :
    ∀ (l : List Item) (st : BState) (x : Nat × Item),
      x ∈ nodesOf st → x ∈ nodesOf (l.foldl bstep st)
  | [], _, _, h => h
  | a :: rest, st, x, h =>
    nodesOf_foldl_mono rest (bstep st a) x (mem_nodesOf_bstep.mpr (Or.inl h))

theorem mem_nodesOf_foldl :
    ∀ (l : List Item) (st : BState) (it : Item), it ∈ l →
      ∃ j, (j, it) ∈ nodesOf (l.foldl bstep st)
  | [], _, _, h => absurd h (List.not_mem_nil _)
  | a :: rest, st, it, h => by
    rcases List.mem_cons.mp h with rfl | h
    · exact ⟨st.next,
        nodesOf_foldl_mono rest (bstep st it) _ (mem_nodesOf_bstep.mpr (Or.inr rfl))⟩
    · exact mem_nodesOf_foldl rest (bstep st a) it h

theorem child_len {univ : List Item} {st : BState} (inv : StInv univ st)
    {i j : Nat} {it itj : Item} (hn : (i, it) ∈ nodesOf st)
    (ha : (i, j, itj) ∈ st.appends) : itj.parts.length = it.parts.length + 1 := by
  obtain ⟨itp, hp, he⟩ := inv.app_parent _ _ _ ha
  have hpt : itp = it := inv.nodes_fn _ _ _ hp hn
  subst hpt
  have h2 := inv.app_len _ _ _ ha
  have h3 := congrArg List.length he
  simp only [List.length_dropLast] at h3
  omega

theorem readback_parts (st : BState) (fuel : Nat) (flag : Bool) (p : Nat × Item) :
    (readback st fuel flag p).parts = p.2.parts := by
  obtain ⟨i, it⟩ := p
  cases fuel <;> rfl

theorem flattenParts_self (t : TreeNode) : t.parts ∈ t.flattenParts := by
  cases t with
  | mk n d p s c =>
    cases c with
    | none => rw [flattenParts_none]; exact List.mem_singleton.mpr rfl
    | some cs => rw [flattenParts_some]; exact List.mem_cons_self _ _

theorem readback_zero_flatten {st : BState} {flag : Bool} {i : Nat} {it : Item}
    {q : PathT} (hq : q ∈ (readback st 0 flag (i, it)).flattenParts) : q = it.parts := by
  simp only [readback] at hq
  cases hd : it.isDir <;> rw [hd] at hq <;>
    simp [flattenParts_none, flattenParts_some] at hq <;> exact hq

theorem readback_succ_flatten_sub {st : BState} {fuel : Nat} {flag : Bool} {i : Nat}
    {it : Item} {q : PathT}
    (hq : q ∈ (readback st (fuel + 1) flag (i, it)).flattenParts) :
    q = it.parts ∨ ∃ jp, jp ∈ childPairs st i ∧
      q ∈ (readback st fuel (flag && jp.2.isDir) jp).flattenParts := by
  simp only [readback] at hq
  by_cases hd : it.isDir = true
  · rw [hd] at hq
    simp only [if_true, flattenParts_some, List.mem_cons, List.mem_flatMap,
      List.mem_map] at hq
    rcases hq with rfl | ⟨nd, ⟨jp, hjp, rfl⟩, hmem⟩
    · exact Or.inl rfl
    · refine Or.inr ⟨jp, ?_, hmem⟩
      by_cases hf : flag = true
      · rw [hf] at hjp
        simp only [if_true] at hjp
        exact (List.mem_insertionSort pairLE).mp hjp
      · rw [Bool.not_eq_true] at hf
        rw [hf] at hjp
        simpa using hjp
  · rw [Bool.not_eq_true] at hd
    rw [hd] at hq
    by_cases hk : (childPairs st i).isEmpty = true
    · simp only [Bool.false_eq_true, if_false, hk, if_true, flattenParts_none,
        List.mem_singleton] at hq
      exact Or.inl hq
    · rw [Bool.not_eq_true] at hk
      simp only [Bool.false_eq_true, if_false, hk, flattenParts_some, List.mem_cons,
        List.mem_flatMap, List.mem_map] at hq
      rcases hq with rfl | ⟨nd, ⟨jp, hjp, rfl⟩, hmem⟩
      · exact Or.inl rfl
      · refine Or.inr ⟨jp, ?_, hmem⟩
        by_cases hf : flag = true
        · rw [hf] at hjp
          simp only [if_true] at hjp
          exact (List.mem_insertionSort pairLE).mp hjp
        · rw [Bool.not_eq_true] at hf
          rw [hf] at hjp
          simpa using hjp

theorem readback_flatten_sub {st : BState} :
    ∀ (fuel : Nat) (flag : Bool) (i : Nat) (it : Item) (q : PathT),
      q ∈ (readback st fuel flag (i, it)).flattenParts →
      q = it.parts ∨ ∃ p j itj, (p, j, itj) ∈ st.appends ∧ q = itj.parts := by
  intro fuel
  induction fuel with
  | zero =>
    intro flag i it q hq
    exact Or.inl (readback_zero_flatten hq)
  | succ fuel ih =>
    intro flag i it q hq
    rcases readback_succ_flatten_sub hq with rfl | ⟨⟨j, itj⟩, hjp, hmem⟩
    · exact Or.inl rfl
    · rcases ih _ j itj q hmem with rfl | ⟨p2, j2, itj2, ha, rfl⟩
      · exact Or.inr ⟨i, j, itj, append_of_childPairs hjp, rfl⟩
      · exact Or.inr ⟨p2, j2, itj2, ha, rfl⟩

theorem readback_succ_flatten_sup {st : BState} {fuel : Nat} {i j : Nat}
    (it : Item) {itj : Item} (hjp : (j, itj) ∈ childPairs st i) :
    ∀ q, q ∈ (readback st fuel (true && itj.isDir) (j, itj)).flattenParts →
      q ∈ (readback st (fuel + 1) true (i, it)).flattenParts := by
  intro q hq
  have hmem : (j, itj) ∈ List.insertionSort pairLE (childPairs st i) :=
    (List.mem_insertionSort pairLE).mpr hjp
  have hne : (childPairs st i).isEmpty = false := by
    cases hk : childPairs st i with
    | nil => rw [hk] at hjp; exact absurd hjp (List.not_mem_nil _)
    | cons a l => rfl
  simp only [readback, if_true]
  by_cases hd : it.isDir = true
  · rw [hd]
    simp only [if_true, flattenParts_some, List.mem_cons, List.mem_flatMap, List.mem_map]
    exact Or.inr ⟨_, ⟨(j, itj), hmem, rfl⟩, hq⟩
  · rw [Bool.not_eq_true] at hd
    rw [hd, hne]
    simp only [Bool.false_eq_true, if_false, flattenParts_some, List.mem_cons,
      List.mem_flatMap, List.mem_map]
    exact Or.inr ⟨_, ⟨(j, itj), hmem, rfl⟩, hq⟩

theorem nodesOf_of_append {st : BState} {p i : Nat} {it : Item}
    (h : (p, i, it) ∈ st.appends) : (i, it) ∈ nodesOf st :=
  List.mem_append.mpr (Or.inr (List.mem_map.mpr ⟨(p, i, it), h, rfl⟩))

theorem nodesOf_of_roots {st : BState} {i : Nat} {it : Item}
    (h : (i, it) ∈ st.roots) : (i, it) ∈ nodesOf st :=
  List.mem_append.mpr (Or.inl h)

theorem childPairs_nodes {st : BState} {i j : Nat} {itj : Item}
    (h : (j, itj) ∈ childPairs st i) : (j, itj) ∈ nodesOf st :=
  nodesOf_of_append (append_of_childPairs h)

theorem readback_fuel_congr {univ : List Item} {st : BState} {B : Nat}
    (inv : StInv univ st) (hB : ∀ x ∈ univ, x.parts.length ≤ B) :
    ∀ (fuel1 fuel2 : Nat) (flag : Bool) (i : Nat) (it : Item),
      (i, it) ∈ nodesOf st →
      B + 1 - it.parts.length ≤ fuel1 → B + 1 - it.parts.length ≤ fuel2 →
      readback st fuel1 flag (i, it) = readback st fuel2 flag (i, it) := by
  intro fuel1
  induction fuel1 with
  | zero =>
    intro fuel2 flag i it hn h1 h2
    have := hB it (inv.nodes_mem _ _ hn)
    omega
  | succ f1 ih =>
    intro fuel2 flag i it hn h1 h2
    cases fuel2 with
    | zero =>
      have := hB it (inv.nodes_mem _ _ hn)
      omega
    | succ f2 =>
      have hcs : ∀ jp ∈ (if flag then List.insertionSort pairLE (childPairs st i)
          else childPairs st i),
          readback st f1 (flag && jp.2.isDir) jp = readback st f2 (flag && jp.2.isDir) jp := by
        intro jp hjp
        obtain ⟨j, itj⟩ := jp
        have hjk : (j, itj) ∈ childPairs st i := by
          by_cases hf : flag = true
          · rw [hf] at hjp
            simp only [if_true] at hjp
            exact (List.mem_insertionSort pairLE).mp hjp
          · rw [Bool.not_eq_true] at hf
            rw [hf] at hjp
            simpa using hjp
        have hap := append_of_childPairs hjk
        have hnj : (j, itj) ∈ nodesOf st := childPairs_nodes hjk
        have hlen := child_len inv hn hap
        have hBj := hB itj (inv.nodes_mem _ _ hnj)
        exact ih f2 _ j itj hnj (by omega) (by omega)
      simp only [readback]
      rw [List.map_congr_left hcs]

theorem readback_flag_perm (st : BState) :
    ∀ (fuel : Nat) (f1 f2 : Bool) (i : Nat) (it : Item),
      List.Perm (readback st fuel f1 (i, it)).flattenParts
        (readback st fuel f2 (i, it)).flattenParts := by
  intro fuel
  induction fuel with
  | zero =>
    intro f1 f2 i it
    have : readback st 0 f1 (i, it) = readback st 0 f2 (i, it) := rfl
    rw [this]
  | succ fuel ih =>
    intro f1 f2 i it
    have hperm : ∀ f : Bool, List.Perm (if f then List.insertionSort pairLE (childPairs st i)
        else childPairs st i) (childPairs st i) := by
      intro f
      by_cases hf : f = true
      · rw [hf]
        simp only [if_true]
        exact List.perm_insertionSort pairLE _
      · rw [Bool.not_eq_true] at hf
        rw [hf]
        simp
    have chain : List.Perm
        (((if f1 then List.insertionSort pairLE (childPairs st i)
          else childPairs st i).map
            (fun p => readback st fuel (f1 && p.2.isDir) p)).flatMap
          TreeNode.flattenParts)
        (((if f2 then List.insertionSort pairLE (childPairs st i)
          else childPairs st i).map
            (fun p => readback st fuel (f2 && p.2.isDir) p)).flatMap
          TreeNode.flattenParts) := by
      rw [List.flatMap_map, List.flatMap_map]
      have c1 := (hperm f1).flatMap_right
        (fun p : Nat × Item => (readback st fuel (f1 && p.2.isDir) p).flattenParts)
      have c2 : List.Perm
          ((childPairs st i).flatMap
            (fun p => (readback st fuel (f1 && p.2.isDir) p).flattenParts))
          ((childPairs st i).flatMap
            (fun p => (readback st fuel (f2 && p.2.isDir) p).flattenParts)) :=
        List.Perm.flatMap_left _ (fun jp _ => ih _ _ jp.1 jp.2)
      have c3 := (hperm f2).flatMap_right
        (fun p : Nat × Item => (readback st fuel (f2 && p.2.isDir) p).flattenParts)
      exact (c1.trans c2).trans c3.symm
    by_cases hd : it.isDir = true
    · simp only [readback, hd, if_true, flattenParts_some]
      exact chain.cons _
    · rw [Bool.not_eq_true] at hd
      by_cases hk : (childPairs st i).isEmpty = true
      · simp only [readback, hd, Bool.false_eq_true, if_false, hk, if_true,
          flattenParts_none]
        exact List.Perm.refl _
      · rw [Bool.not_eq_true] at hk
        simp only [readback, hd, Bool.false_eq_true, if_false, hk, flattenParts_some]
        exact chain.cons _

theorem le_maxDepth {it : Item} {items : List Item} (h : it ∈ items) :
    it.parts.length ≤ maxDepth items := by
  induction items with
  | nil => cases h
  | cons a rest ih =>
    rcases List.mem_cons.mp h with rfl | h
    · exact le_max_left _ _
    · exact le_trans (ih h) (le_max_right _ _)

theorem nodes_flatten_total {univ : List Item} {st : BState} {B : Nat}
    (inv : StInv univ st) (hB : ∀ x ∈ univ, x.parts.length ≤ B) :
    ∀ (len : Nat) (i : Nat) (it : Item), (i, it) ∈ nodesOf st → it.parts.length = len →
      ∀ q ∈ (readback st (B + 1 - len) true (i, it)).flattenParts,
        q ∈ ((List.insertionSort pairLE st.roots).map
          (readback st (B + 1) true)).flatMap TreeNode.flattenParts := by
  intro len
  induction len using Nat.strong_induction_on with
  | _ len IH =>
    intro i it hn hlen q hq
    rcases List.mem_append.mp hn with hroot | happ
    · have hBit := hB it (inv.nodes_mem _ _ hn)
      have hfe : readback st (B + 1 - len) true (i, it) = readback st (B + 1) true (i, it) := by
        apply readback_fuel_congr inv hB _ _ true i it hn
        · omega
        · omega
      have hmem : readback st (B + 1) true (i, it) ∈
          (List.insertionSort pairLE st.roots).map (readback st (B + 1) true) :=
        List.mem_map.mpr ⟨(i, it), (List.mem_insertionSort _).mpr hroot, rfl⟩
      exact List.mem_flatMap.mpr ⟨_, hmem, hfe ▸ hq⟩
    · obtain ⟨⟨p, j, itj⟩, ha, he⟩ := List.mem_map.mp happ
      have hji : j = i ∧ itj = it := by
        have := Prod.mk.injEq .. ▸ he
        exact this
      obtain ⟨rfl, rfl⟩ := hji
      obtain ⟨itp, hpn, hpp⟩ := inv.app_parent _ _ _ ha
      have hlen2 := inv.app_len _ _ _ ha
      have hplen : itp.parts.length = len - 1 := by
        have := congrArg List.length hpp
        simp only [List.length_dropLast] at this
        omega
      have hchild : (j, itj) ∈ childPairs st p := childPairs_of_append ha
      have hfp := readback_flag_perm st (B + 1 - len) true (true && itj.isDir) j itj
      have hq2 : q ∈ (readback st (B + 1 - len) (true && itj.isDir) (j, itj)).flattenParts :=
        hfp.mem_iff.mp hq
      have hsup := readback_succ_flatten_sup itp hchild q hq2
      have hBit := hB itj (inv.nodes_mem _ _ hn)
      have harith : B + 1 - len + 1 = B + 1 - (len - 1) := by omega
      rw [harith] at hsup
      exact IH (len - 1) (by omega) p itp hpn hplen q hsup

theorem buildTree_flatten_iff (items : List Item) (q : PathT) :
    q ∈ (buildTree items).tree.flatMap TreeNode.flattenParts ↔
      ∃ it, it ∈ items ∧ q = it.parts := by
  have hsp := List.perm_insertionSort depthLE items
  have inv := stInv_buildState (List.insertionSort depthLE items)
  have hB : ∀ x ∈ List.insertionSort depthLE items, x.parts.length ≤ maxDepth items :=
    fun x hx => le_maxDepth (hsp.mem_iff.mp hx)
  constructor
  · intro hq
    simp only [buildTree] at hq
    obtain ⟨t, ht, hqt⟩ := List.mem_flatMap.mp hq
    obtain ⟨⟨i, it⟩, hpr, rfl⟩ := List.mem_map.mp ht
    have hroot : (i, it) ∈ (buildState (List.insertionSort depthLE items)).roots :=
      (List.mem_insertionSort _).mp hpr
    rcases readback_flatten_sub _ _ _ _ _ hqt with rfl | ⟨p, j, itj, ha, rfl⟩
    · exact ⟨it, hsp.mem_iff.mp (inv.nodes_mem _ _ (nodesOf_of_roots hroot)), rfl⟩
    · exact ⟨itj, hsp.mem_iff.mp (inv.nodes_mem _ _ (nodesOf_of_append ha)), rfl⟩
  · rintro ⟨it, hit, rfl⟩
    obtain ⟨j, hj⟩ := mem_nodesOf_foldl (List.insertionSort depthLE items)
      { next := 0, tmap := [], appends := [], roots := [] } it (hsp.mem_iff.mpr hit)
    have hhead : it.parts ∈ (readback (buildState (List.insertionSort depthLE items))
        (maxDepth items + 1 - it.parts.length) true (j, it)).flattenParts := by
      have h1 := flattenParts_self (readback (buildState (List.insertionSort depthLE items))
        (maxDepth items + 1 - it.parts.length) true (j, it))
      rwa [readback_parts] at h1
    simp only [buildTree]
    exact nodes_flatten_total inv hB it.parts.length j it hj rfl it.parts hhead

theorem c3_core (items : List Item) :
    ((List.insertionSort itemLE items).map Item.parts).toFinset =
      ((buildTree items).tree.flatMap TreeNode.flattenParts).toFinset := by
  ext q
  simp only [List.mem_toFinset, List.mem_map, buildTree_flatten_iff]
  constructor
  · rintro ⟨it, hit, rfl⟩
    exact ⟨it, (List.mem_insertionSort _).mp hit, rfl⟩
  · rintro ⟨it, hit, rfl⟩
    exact ⟨it, (List.mem_insertionSort _).mpr hit, rfl⟩

/-- Claim C3: the set of `relative_path` values returned by
`list_items(path, recursive=True)` equals the set of `relative_path` values
obtained by recursively flattening the forest returned by `get_tree(path)`,
for every base path and filesystem state. -/
theorem c3_flat_nested_equiv (root : PathT) (fs : FSEntry) (rel : Option (List Char))
    (l : List Item) (t : TreeResult)
    (hl : list_items root fs rel true = .ok l) (ht : get_tree root fs rel = .ok t) :
    (l.map Item.parts).toFinset = (t.tree.flatMap TreeNode.flattenParts).toFinset := by
  cases rel with
  | none =>
    cases fs with
    | file c => exact Except.noConfusion ht
    | dir es =>
      simp only [get_tree, Except.ok.injEq] at ht
      simp only [list_items, if_true, Except.ok.injEq] at hl
      subst ht
      subst hl
      exact c3_core _
  | some raw =>
    cases hv : validate_path root raw with
    | error e =>
      simp only [get_tree, hv] at ht
      exact Except.noConfusion ht
    | ok f =>
      simp only [get_tree, hv] at ht
      simp only [list_items, hv] at hl
      cases hf : findEntry fs (relSegs root f) with
      | none => simp only [hf] at ht; exact Except.noConfusion ht
      | some e0 =>
        cases e0 with
        | file c => simp only [hf] at ht; exact Except.noConfusion ht
        | dir es =>
          simp only [hf, Except.ok.injEq] at ht hl
          subst ht
          rw [if_pos (by trivial)] at hl
          subst hl
          exact c3_core _

/-- Witness for C3 on a concrete two-level tree. -/
theorem c3_flat_nested_equiv_witness :
    list_items [str "r"] (.dir [(str "a", .dir [(str "x.txt", .file [1, 2])]),
        (str "b.txt", .file [7])]) none true =
      .ok (List.insertionSort itemLE (walkChildren []
        [(str "a", .dir [(str "x.txt", .file [1, 2])]), (str "b.txt", .file [7])])) ∧
    get_tree [str "r"] (.dir [(str "a", .dir [(str "x.txt", .file [1, 2])]),
        (str "b.txt", .file [7])]) none =
      .ok (buildTree (walkChildren [] [(str "a", .dir [(str "x.txt", .file [1, 2])]),
        (str "b.txt", .file [7])])) ∧
    ((List.insertionSort itemLE (walkChildren []
        [(str "a", .dir [(str "x.txt", .file [1, 2])]),
          (str "b.txt", .file [7])])).map Item.parts).toFinset =
      ((buildTree (walkChildren [] [(str "a", .dir [(str "x.txt", .file [1, 2])]),
        (str "b.txt", .file [7])])).tree.flatMap TreeNode.flattenParts).toFinset := by
  refine ⟨by rfl, by rfl, ?_⟩
  exact c3_flat_nested_equiv [str "r"]
    (.dir [(str "a", .dir [(str "x.txt", .file [1, 2])]), (str "b.txt", .file [7])]) none
    (List.insertionSort itemLE (walkChildren []
      [(str "a", .dir [(str "x.txt", .file [1, 2])]), (str "b.txt", .file [7])]))
    (buildTree (walkChildren [] [(str "a", .dir [(str "x.txt", .file [1, 2])]),
      (str "b.txt", .file [7])]))
    (by rfl) (by rfl)


/-! ### Tree-node children vs node type (claim C9) -/

/-- Claim C9 fails on the program: the invariant that a node's `children` is
non-null exactly when the node's type is folder is violated on a reachable
state.  `create_folder` accepts the raw path `a\b.txt` (the backslash is
interior, so trimming leaves it, and there is no `..`, leading `/` or `:`)
and creates a directory literally named `a\b.txt`; `upload_file` then places
a file `c` inside it.  The directory's slash-normalized relative path
(lines 343–345) is `a/b.txt`, colliding with the file `b.txt` inside the
directory `a`; in the depth-then-name sort the directory (name `a\b.txt`)
precedes the file (name `b.txt`), so the file's `tree_map["a/b.txt"]`
assignment wins, the child `c` is appended to the file node, and line 377
promotes that file node's `children` from `None` to a list: `get_tree`
returns a forest containing a file node with non-null `children`. -/
theorem c9_children_iff_folder :
    create_folder [str "r"]
        (.dir [(str "a", .dir [(str "b.txt", .file [1])])]) (str "a\\b.txt") =
      .ok ([str "r", str "a\\b.txt"],
        .dir [(str "a", .dir [(str "b.txt", .file [1])]),
          (str "a\\b.txt", .dir [])]) ∧
    upload_file [str "r"]
        (.dir [(str "a", .dir [(str "b.txt", .file [1])]),
          (str "a\\b.txt", .dir [])]) [2] (str "a\\b.txt") (str "c") false =
      .ok ([str "r", str "a\\b.txt", str "c"],
        .dir [(str "a", .dir [(str "b.txt", .file [1])]),
          (str "a\\b.txt", .dir [(str "c", .file [2])])]) ∧
    (FSEntry.dir [(str "a", .dir [(str "b.txt", .file [1])]),
        (str "a\\b.txt", .dir [(str "c", .file [2])])]).wfb = true ∧
    get_tree [str "r"]
        (.dir [(str "a", .dir [(str "b.txt", .file [1])]),
          (str "a\\b.txt", .dir [(str "c", .file [2])])]) none =
      .ok (buildTree (walkChildren []
        [(str "a", .dir [(str "b.txt", .file [1])]),
          (str "a\\b.txt", .dir [(str "c", .file [2])])])) ∧
    ((buildTree (walkChildren []
        [(str "a", .dir [(str "b.txt", .file [1])]),
          (str "a\\b.txt", .dir [(str "c", .file [2])])])).tree.flatMap
      TreeNode.allNodes).any (fun t => !t.isDir && t.children.isSome) = true ∧
    ((buildTree (walkChildren []
        [(str "a", .dir [(str "b.txt", .file [1])]),
          (str "a\\b.txt", .dir [(str "c", .file [2])])])).tree.flatMap
      TreeNode.allNodes).all nodeOk = false := by
  refine ⟨by rfl, by rfl, by decide, by rfl, ?_, ?_⟩
  · rw [show (buildTree (walkChildren []
          [(str "a", .dir [(str "b.txt", .file [1])]),
            (str "a\\b.txt", .dir [(str "c", .file [2])])])).tree =
        [TreeNode.mk (str "a") true [str "a"] none (some
          [TreeNode.mk (str "a\\b.txt") true [str "a", str "b.txt"] none (some []),
           TreeNode.mk (str "b.txt") false [str "a", str "b.txt"] (some 1) (some
             [TreeNode.mk (str "c") false [str "a", str "b.txt", str "c"] (some 1)
               none])])] from rfl]
    simp only [List.flatMap_cons, List.flatMap_nil, allNodes_some, allNodes_none,
      List.append_nil, List.cons_append, List.nil_append]
    decide
  · rw [show (buildTree (walkChildren []
          [(str "a", .dir [(str "b.txt", .file [1])]),
            (str "a\\b.txt", .dir [(str "c", .file [2])])])).tree =
        [TreeNode.mk (str "a") true [str "a"] none (some
          [TreeNode.mk (str "a\\b.txt") true [str "a", str "b.txt"] none (some []),
           TreeNode.mk (str "b.txt") false [str "a", str "b.txt"] (some 1) (some
             [TreeNode.mk (str "c") false [str "a", str "b.txt", str "c"] (some 1)
               none])])] from rfl]
    simp only [List.flatMap_cons, List.flatMap_nil, allNodes_some, allNodes_none,
      List.append_nil, List.cons_append, List.nil_append]
    decide
